import Mathlib

/-!
# Verification of `cmd_line_agenda.py`

A shallow embedding of the core of the command-line agenda program
(`Agenda` store, settings loader, command dispatch helpers, and the
user-facing date-expression parser), with theorems about the embedded
definitions.

Modeling conventions:

* Python strings are modeled as `List Char` (a Python `str` is a sequence
  of characters).  The string operations the program uses — `split` with a
  separator, whitespace `split()`, `join`, `strip()`, and the containment
  operator `in` — are implemented below with Python's semantics
  (`pySplitOne`/`pySplitTwo`, `pySplitWs`, `pyJoin`, `pyStrip`, `pyInStr`).

* Calendar dates appear at two levels of detail.  The agenda store only
  uses the order and day-successor structure of dates, so there a date is
  an integer day number (`Int`); its `isoformat` is rendered as the
  decimal numeral (`pyIntStr`), which is injective, whitespace-free and
  newline-free, and is parsed back by `dateFromIso` — exactly the
  properties of `YYYY-MM-DD` strings that the store's file format relies
  on.  The user-facing parser `_parse_date` depends on genuine calendar
  structure (months, leap years, `fromisoformat` validation), so it is
  modeled over a `YMD` structure with Gregorian validity rules.

* Fallible Python code is modeled with `Option`/`Except`.  The mutating
  agenda operations return `Except Agenda …`: the `error` value carries
  the in-memory state at the moment the exception is raised, which is the
  state the program keeps after the dispatch boundary catches the
  exception.

* In Python, `Agenda.__init__(self)` is immediately shadowed by
  `Agenda.__init__(self, file_path)`, so the only constructor is the
  file-loading one; `Agenda.init` models its missing-file path (a blank
  agenda holding only today) and `Agenda.load` models its parsing path.
-/

namespace CLA

/-! ## Python string primitives -/

/-- The whitespace characters recognized by Python's `str.strip()` and
`str.split()` with no argument. -/
def isSpacePy (c : Char) : Bool :=
  c = ' ' || c = '\t' || c = '\n' || c = '\r' || c = '\x0b' || c = '\x0c'

/-- Python `s.strip()`: removes leading and trailing whitespace. -/
def pyStrip (l : List Char) : List Char :=
  ((l.dropWhile isSpacePy).reverse.dropWhile isSpacePy).reverse

/-- Python `sep.join(parts)`. -/
def pyJoin (sep : List Char) : List (List Char) → List Char
  | [] => []
  | [x] => x
  | x :: y :: r => x ++ sep ++ pyJoin sep (y :: r)

/-- Python `s.split(sep)` for a one-character separator: cuts at every
occurrence, keeping empty fragments. -/
def pySplitOne (sep : Char) : List Char → List (List Char)
  | [] => [[]]
  | c :: r =>
    if c = sep then [] :: pySplitOne sep r
    else
      match pySplitOne sep r with
      | [] => [[c]]
      | g :: gs => (c :: g) :: gs

/-- Python `s.split(sep)` for a two-character separator (the program
splits on a blank line separator and on a colon-space): cuts at every
leftmost, non-overlapping occurrence, keeping empty fragments. -/
def pySplitTwo (c1 c2 : Char) : List Char → List (List Char)
  | [] => [[]]
  | [c] => [[c]]
  | a :: b :: r =>
    if a = c1 ∧ b = c2 then [] :: pySplitTwo c1 c2 r
    else
      match pySplitTwo c1 c2 (b :: r) with
      | [] => [[a]]
      | g :: gs => (a :: g) :: gs

/-- Helper for `pySplitWs`; `acc` is the current (reversed) token. -/
def pySplitWsAux : List Char → List Char → List (List Char)
  | [], acc => if acc.isEmpty then [] else [acc.reverse]
  | c :: r, acc =>
    if isSpacePy c then
      if acc.isEmpty then pySplitWsAux r []
      else acc.reverse :: pySplitWsAux r []
    else pySplitWsAux r (c :: acc)

/-- Python `s.split()` with no argument: splits on runs of whitespace and
never produces empty tokens. -/
def pySplitWs (l : List Char) : List (List Char) :=
  pySplitWsAux l []

/-- Python's containment test `sub in s` on strings: substring containment. -/
def pyInStr (sub : List Char) : List Char → Bool
  | [] => sub.isEmpty
  | c :: r => sub.isPrefixOf (c :: r) || pyInStr sub r

/-! ## Decimal numerals -/

/-- Fuel-driven core of `natDigits` (the fuel only serves structural
recursion; any fuel above the value is enough). -/
def natDigitsF : Nat → Nat → List Char
  | 0, _ => []
  | fuel + 1, n =>
    if n < 10 then [Char.ofNat (48 + n)]
    else natDigitsF fuel (n / 10) ++ [Char.ofNat (48 + n % 10)]

/-- The decimal digit characters of `n`, most significant first (Python
`str(n)` for a natural number). -/
def natDigits (n : Nat) : List Char :=
  natDigitsF (n + 1) n

/-- The value of a list of decimal digit characters. -/
def digitsToNat (l : List Char) : Nat :=
  l.foldl (fun a c => a * 10 + (c.toNat - 48)) 0

/-- Python `int(s)`: optional surrounding whitespace, optional sign,
then decimal digits. -/
def pyParseInt (l : List Char) : Option Int :=
  match pyStrip l with
  | '-' :: r => if r ≠ [] ∧ r.all Char.isDigit then some (-(digitsToNat r : Int)) else none
  | '+' :: r => if r ≠ [] ∧ r.all Char.isDigit then some ((digitsToNat r : Int)) else none
  | r => if r ≠ [] ∧ r.all Char.isDigit then some ((digitsToNat r : Int)) else none

/-- Rendering of an agenda date (an integer day number) for the save file:
the decimal numeral, standing in for `date.isoformat()`. -/
def pyIntStr (d : Int) : List Char :=
  if d < 0 then '-' :: natDigits (-d).toNat else natDigits d.toNat

/-- Parsing of an agenda date from the save file, standing in for
`date.fromisoformat` on the store's integer day numbers; fails (like the
Python exception) on anything that is not a numeral. -/
def dateFromIso (l : List Char) : Option Int :=
  match l with
  | '-' :: r => if r ≠ [] ∧ r.all Char.isDigit then some (-(digitsToNat r : Int)) else none
  | r => if r ≠ [] ∧ r.all Char.isDigit then some ((digitsToNat r : Int)) else none

/-! ## Task status -/

/-- The `TaskStatus` enum. -/
inductive TaskStatus where
  | NOT_STARTED
  | IN_PROGRESS
  | DONE
deriving DecidableEq, Repr, BEq

/-- The `value` string of a `TaskStatus` member. -/
def statusValue : TaskStatus → List Char
  | .NOT_STARTED => "NOT_STARTED".data
  | .IN_PROGRESS => "IN_PROGRESS".data
  | .DONE => "DONE".data

/-- The `TaskStatus(string)` constructor: fails (`ValueError`) on any other
string. -/
def statusOf (l : List Char) : Option TaskStatus :=
  if l = "NOT_STARTED".data then some .NOT_STARTED
  else if l = "IN_PROGRESS".data then some .IN_PROGRESS
  else if l = "DONE".data then some .DONE
  else none

/-- A task: `(description, status)`, as stored in the agenda mapping. -/
abbrev Task := String × TaskStatus

/-! ## The agenda mapping

The Python `self.agenda` dict maps dates to task lists and iterates in
insertion order; it is modeled as an association list whose update
operations mirror dict assignment (replace in place if the key is present,
append otherwise). -/

/-- Dictionary lookup `m[d]` (as an `Option`). -/
def lookupA (m : List (Int × List Task)) (d : Int) : Option (List Task) :=
  match m with
  | [] => none
  | (k, v) :: r => if k = d then some v else lookupA r d

/-- Dictionary membership `d in m`. -/
def containsA (m : List (Int × List Task)) (d : Int) : Bool :=
  (lookupA m d).isSome

/-- Dictionary assignment `m[d] = v`: replaces in place if present,
appends otherwise (Python dicts keep insertion order). -/
def setA (m : List (Int × List Task)) (d : Int) (v : List Task) : List (Int × List Task) :=
  match m with
  | [] => [(d, v)]
  | (k, w) :: r => if k = d then (k, v) :: r else (k, w) :: setA r d v

/-- In-place mutation of the list stored under `d` (Python
`m[d].append(…)`, `m[d][i] = …`, `m[d].remove(…)`). -/
def modifyA (m : List (Int × List Task)) (d : Int) (f : List Task → List Task) :
    List (Int × List Task) :=
  match m with
  | [] => []
  | (k, w) :: r => if k = d then (k, f w) :: r else (k, w) :: modifyA r d f

/-- Python list indexing `l[i]` with an `int` index: negative indices count
from the end; out-of-range raises (`none`). -/
def pyIndex {α : Type} (l : List α) (i : Int) : Option α :=
  let j : Int := if i < 0 then (l.length : Int) + i else i
  if h : 0 ≤ j ∧ j < (l.length : Int) then some (l.get ⟨j.toNat, by omega⟩) else none

/-! ## The Agenda store -/

/-- The `Agenda` object: the date→tasks mapping plus the cached extreme
dates (`farthest_date` is the spec's `latest_date`). -/
structure Agenda where
  agenda : List (Int × List Task)
  farthest_date : Int
  earliest_date : Int
deriving DecidableEq, Repr

/-- The blank agenda built by the constructor when the file is missing:
only today, with no tasks. -/
def Agenda.init (today : Int) : Agenda :=
  ⟨[(today, [])], today, today⟩

/-- The body of the `while day_date <= to_day` loop of `_add_days`;
`fuel` is the number of remaining iterations. -/
def addDaysLoop (m : List (Int × List Task)) (day : Int) :
    Nat → List (Int × List Task)
  | 0 => m
  | fuel + 1 =>
    addDaysLoop (if containsA m day then m else setA m day []) (day + 1) fuel

/-- `Agenda._add_days(from_day, to_day)` on the raw mapping: adds an empty
entry for every day of `[fromD, toD]` not already present.  (The source
asserts `to_day >= from_day`; every call site satisfies it, and with
`toD < fromD` the loop body never runs.) -/
def _add_days (m : List (Int × List Task)) (fromD toD : Int) : List (Int × List Task) :=
  addDaysLoop m fromD (toD + 1 - fromD).toNat

/-- `Agenda.get_tasks(day)`: the day's task list, `[]` for an untracked
day (the loop in the source copies the list element by element). -/
def get_tasks (a : Agenda) (day : Int) : List Task :=
  (lookupA a.agenda day).getD []

/-- `Agenda._check_not_duplicate(day, description)`: `true` iff the check
raises, i.e. iff `description` is already the description of some task of
`day` in the mapping `m`. -/
def _check_not_duplicate (m : List (Int × List Task)) (day : Int) (description : String) :
    Bool :=
  decide (description ∈ ((lookupA m day).getD []).map Prod.fst)

/-- `Agenda.refresh_today_date()`, with the current date passed explicitly. -/
def refresh_today_date (today : Int) (a : Agenda) : Agenda :=
  let m := if containsA a.agenda today then a.agenda else setA a.agenda today []
  if a.farthest_date < today then
    { agenda := m, farthest_date := today, earliest_date := a.earliest_date }
  else if a.farthest_date > today then
    { agenda := _add_days m today a.farthest_date, farthest_date := a.farthest_date,
      earliest_date := a.earliest_date }
  else
    { agenda := m, farthest_date := a.farthest_date, earliest_date := a.earliest_date }

/-- `Agenda.add_task(day, description, status)`.  The source first ensures
the day has an entry, then runs the duplicate check (raising leaves the
state of that moment behind, carried in the `error` value), then appends,
extends the range, and refreshes. -/
def add_task (today : Int) (a : Agenda) (day : Int) (description : String)
    (status : TaskStatus) : Except Agenda Agenda :=
  let m := if containsA a.agenda day then a.agenda else setA a.agenda day []
  if _check_not_duplicate m day description then
    .error { a with agenda := m }
  else
    let m2 := modifyA m day (fun l => l ++ [(description, status)])
    let a2 : Agenda :=
      if day > a.farthest_date then
        { agenda := _add_days m2 a.farthest_date day, farthest_date := day,
          earliest_date := a.earliest_date }
      else if day < a.earliest_date then
        { agenda := m2, farthest_date := a.farthest_date, earliest_date := day }
      else
        { agenda := m2, farthest_date := a.farthest_date, earliest_date := a.earliest_date }
    .ok (refresh_today_date today a2)

/-- `Agenda.remove_task(day, task_index)`: checks, then removes by value
(`list.remove` removes the first occurrence) and returns the removed
description and status. -/
def remove_task (a : Agenda) (day : Int) (task_index : Int) :
    Except Agenda (Agenda × String × TaskStatus) :=
  match lookupA a.agenda day with
  | none => .error a
  | some ts =>
    if h : 0 ≤ task_index ∧ task_index < (ts.length : Int) then
      let old := ts.get ⟨task_index.toNat, by omega⟩
      .ok ({ a with agenda := modifyA a.agenda day (fun l => l.erase old) }, old.1, old.2)
    else .error a

/-- `Agenda.modify_task(day, task_index, new_description)`: checks
(including the duplicate check, which inspects the whole task list of the
day), then replaces the description in place, preserving the status, and
returns the prior description. -/
def modify_task (a : Agenda) (day : Int) (task_index : Int) (new_description : String) :
    Except Agenda (Agenda × String) :=
  match lookupA a.agenda day with
  | none => .error a
  | some ts =>
    if h : 0 ≤ task_index ∧ task_index < (ts.length : Int) then
      if _check_not_duplicate a.agenda day new_description then .error a
      else
        let cur := ts.get ⟨task_index.toNat, by omega⟩
        .ok ({ a with
                agenda := modifyA a.agenda day
                  (fun l => l.set task_index.toNat (new_description, cur.2)) },
             cur.1)
    else .error a

/-- `Agenda.update_task_status(day, task_index, new_status)`: checks, sets
the status in place, and returns the prior status. -/
def update_task_status (a : Agenda) (day : Int) (task_index : Int) (new_status : TaskStatus) :
    Except Agenda (Agenda × TaskStatus) :=
  match lookupA a.agenda day with
  | none => .error a
  | some ts =>
    if h : 0 ≤ task_index ∧ task_index < (ts.length : Int) then
      let cur := ts.get ⟨task_index.toNat, by omega⟩
      .ok ({ a with
              agenda := modifyA a.agenda day
                (fun l => l.set task_index.toNat (cur.1, new_status)) },
           cur.2)
    else .error a

/-! ## Dispatcher-level helpers -/

/-- The `next_enum` status transition table of
`AgendaCommandLineController.update_status_item`. -/
def next_enum : TaskStatus → TaskStatus
  | .NOT_STARTED => .IN_PROGRESS
  | .IN_PROGRESS => .DONE
  | .DONE => .NOT_STARTED

/-- `AgendaCommandLineController.update_status_item` after argument
parsing: reads the old status via `get_tasks(day)[index]` (Python
indexing), then advances the status with `next_enum`. -/
def update_status_item (a : Agenda) (day : Int) (index : Int) : Except Agenda Agenda :=
  match pyIndex (get_tasks a day) index with
  | none => .error a
  | some old =>
    match update_task_status a day index (next_enum old.2) with
    | .error ae => .error ae
    | .ok (a', _) => .ok a'

/-- A mutating command of the main loop, after its date and index
arguments have been parsed (`a`, `r`, `m`, `u`). -/
inductive MutCmd where
  | add (day : Int) (description : String)
  | remove (day : Int) (index : Int)
  | modify (day : Int) (index : Int) (description : String)
  | updateStatus (day : Int) (index : Int)

/-- The agenda effect of one mutating command handler (`add_item` always
adds with status `NOT_STARTED`; saving/autosaving does not change the
in-memory agenda). -/
def runMut (today : Int) (a : Agenda) : MutCmd → Except Agenda Agenda
  | .add day desc => add_task today a day desc TaskStatus.NOT_STARTED
  | .remove day i => (remove_task a day i).map (·.1)
  | .modify day i d => (modify_task a day i d).map (·.1)
  | .updateStatus day i => update_status_item a day i

/-- The `try/except` dispatch boundary of `_handle_main_loop` around a
mutating command: an exception is caught, leaving the carried state, and
the loop continues (the returned `Bool` is the quit signal, `false` for
every dispatched command). -/
def mainStep (today : Int) (a : Agenda) (c : MutCmd) : Agenda × Bool :=
  match runMut today a c with
  | .ok a' => (a', false)
  | .error ae => (ae, false)

/-- An agenda-store operation, for reasoning about arbitrary operation
sequences. -/
inductive AgendaOp where
  | add (day : Int) (description : String) (status : TaskStatus)
  | remove (day : Int) (index : Int)
  | modify (day : Int) (index : Int) (description : String)
  | update (day : Int) (index : Int) (status : TaskStatus)
  | refresh

/-- Applies one operation; a raised exception is caught at the dispatch
boundary, so the state it carries is kept. -/
def applyOp (today : Int) (a : Agenda) : AgendaOp → Agenda
  | .add day desc st =>
    match add_task today a day desc st with
    | .ok a' => a'
    | .error ae => ae
  | .remove day i =>
    match remove_task a day i with
    | .ok (a', _, _) => a'
    | .error ae => ae
  | .modify day i d =>
    match modify_task a day i d with
    | .ok (a', _) => a'
    | .error ae => ae
  | .update day i st =>
    match update_task_status a day i st with
    | .ok (a', _) => a'
    | .error ae => ae
  | .refresh => refresh_today_date today a

/-- Runs a sequence of operations on a freshly constructed agenda, the
current date held fixed. -/
def runOps (today : Int) (ops : List AgendaOp) : Agenda :=
  ops.foldl (applyOp today) (Agenda.init today)

/-! ## Save and load -/

/-- One task line of the save format: `<STATUS> <description>`. -/
def taskLine (t : Task) : List Char :=
  statusValue t.2 ++ ' ' :: t.1.data

/-- The text `Agenda.save` appends for one day of the mapping: the date
line, one line per task, and a blank separator line. -/
def dayBlock (e : Int × List Task) : List Char :=
  pyIntStr e.1 ++ '\n' :: ((e.2.map (fun t => taskLine t ++ ['\n'])).flatten ++ ['\n'])

/-- `Agenda.save`: the file content written (the concatenation over the
mapping in insertion order, stripped). -/
def save (a : Agenda) : List Char :=
  pyStrip (a.agenda.map dayBlock).flatten

/-- Parses one `<STATUS> <description>` line of a day block
(`task.split()`, status from the first token, description from the rest
rejoined with single spaces). -/
def parseTaskLine (l : List Char) : Option Task :=
  match pySplitWs l with
  | [] => none
  | tok :: rest =>
    match statusOf tok with
    | none => none
    | some st => some (String.mk (pyJoin [' '] rest), st)

/-- The loader state: the mapping under construction plus the running
farthest and earliest dates. -/
structure LoadState where
  agenda : List (Int × List Task)
  farthest_date : Int
  earliest_date : Int

/-- Parses the task lines of one day block in order, failing if any line
fails. -/
def parseTasks : List (List Char) → Option (List Task)
  | [] => some []
  | l :: r =>
    match parseTaskLine l with
    | none => none
    | some t =>
      match parseTasks r with
      | none => none
      | some ts => some (t :: ts)

/-- Processes one blank-line-separated day block of the file: blocks with
no task line are skipped; otherwise the date line is parsed, the tasks
are parsed and stored, and the extreme dates are updated. -/
def loadBlock (st : LoadState) (block : List Char) : Option LoadState :=
  let split_into_tasks := pySplitOne '\n' block
  if split_into_tasks.length = 1 then some st
  else
    match split_into_tasks with
    | [] => none
    | dateLine :: taskLines =>
      match dateFromIso dateLine with
      | none => none
      | some day_date =>
        match parseTasks taskLines with
        | none => none
        | some ts =>
          some ⟨setA st.agenda day_date ts,
                if day_date > st.farthest_date then day_date else st.farthest_date,
                if day_date < st.earliest_date then day_date else st.earliest_date⟩

/-- The `for day_string in split_into_days` loop of the constructor. -/
def loadBlocks : LoadState → List (List Char) → Option LoadState
  | st, [] => some st
  | st, b :: bs =>
    match loadBlock st b with
    | none => none
    | some st2 => loadBlocks st2 bs

/-- `Agenda.__init__(file_path)` on an existing file with content
`content`: splits into day blocks, folds `loadBlock`, then ensures the
range from today to the farthest stored day is contiguous. -/
def load (today : Int) (content : List Char) : Option Agenda :=
  let blocks := pySplitTwo '\n' '\n' (pyStrip content)
  match loadBlocks ⟨[], today, today⟩ blocks with
  | none => none
  | some st => some ⟨_add_days st.agenda today st.farthest_date,
                     st.farthest_date, st.earliest_date⟩

/-- A description in the canonical whitespace form produced by the
command parser: non-empty and equal to its own whitespace tokens
rejoined with single spaces.  Save/load can only round-trip such
descriptions (the loader re-tokenizes each task line). -/
def canonicalDesc (s : String) : Prop :=
  s.data ≠ [] ∧ pyJoin [' '] (pySplitWs s.data) = s.data

/-- The text of one day of the save file without its trailing blank-line
separator: the date line and the task lines joined by newlines. -/
def dayContent (e : Int × List Task) : List Char :=
  pyJoin ['\n'] (pyIntStr e.1 :: e.2.map taskLine)

/-- The days of an agenda that hold at least one task, in mapping
order. -/
def taskDays (a : Agenda) : List Int :=
  (a.agenda.filter (fun e => !e.2.isEmpty)).map Prod.fst

/-- The loader's running farthest date over a list of loaded days. -/
def foldFar (x : Int) (ds : List Int) : Int :=
  ds.foldl (fun f d => if d > f then d else f) x

/-- The loader's running earliest date over a list of loaded days. -/
def foldEarl (x : Int) (ds : List Int) : Int :=
  ds.foldl (fun f d => if d < f then d else f) x

/-- No two adjacent newline characters (so the text contains no
blank-line separator). -/
def noNlNl : List Char → Bool
  | [] => true
  | [_] => true
  | a :: b :: r => if a = '\n' ∧ b = '\n' then false else noNlNl (b :: r)

/-! ## Settings -/

/-- A settings value: the program stores booleans and non-negative
integers. -/
inductive SettingValue where
  | boolVal (b : Bool)
  | intVal (n : Nat)
deriving DecidableEq, Repr

/-- The `settings_names` schema of the controller, in order. -/
def settings_names : List (List Char) :=
  ["random setting".data,
   "show weekday names".data,
   "show number of days from today".data,
   "max number of upcoming days displayed (0 = no limit)".data,
   "show past days in reverse order".data,
   "show upcoming days in reverse order".data,
   "autosave all changes".data]

/-- The `settings_defaults` of the controller, in schema order. -/
def settings_defaults : List SettingValue :=
  [.boolVal false, .boolVal false, .boolVal false, .intVal 0,
   .boolVal false, .boolVal false, .boolVal false]

/-- One iteration of the `_load_saved_settings` loop at position `i`:
`lines[i].strip().split(": ")` must unpack into exactly two parts, the
name must equal `settings_names[i]`, and the value must be `True`,
`False`, or a digit string.  Any failure is an exception (`none`). -/
def parseSettingLine (i : Nat) (l : List Char) : Option SettingValue :=
  match pySplitTwo ':' ' ' (pyStrip l) with
  | [description, setting] =>
    if settings_names.get? i = some description then
      if setting = "True".data then some (.boolVal true)
      else if setting = "False".data then some (.boolVal false)
      else if setting ≠ [] ∧ setting.all Char.isDigit then some (.intVal (digitsToNat setting))
      else none
    else none
  | _ => none

/-- The `for i in range(len(lines))` loop of `_load_saved_settings`,
starting at position `i`. -/
def loadSettingsCore (i : Nat) : List (List Char) → Option (List SettingValue)
  | [] => some []
  | l :: ls =>
    match parseSettingLine i l with
    | none => none
    | some v =>
      match loadSettingsCore (i + 1) ls with
      | none => none
      | some vs => some (v :: vs)

/-- `_load_saved_settings` on the file's lines: parse every line
positionally, then fill missing trailing entries from the defaults. -/
def _load_saved_settings (lines : List (List Char)) : Option (List SettingValue) :=
  match loadSettingsCore 0 lines with
  | none => none
  | some vs => some (vs ++ settings_defaults.drop vs.length)

/-- The settings initialization in the controller's constructor: when the
settings file exists, try to load it, falling back to the defaults on any
exception; when it does not exist, use the defaults. -/
def startupSettings (fileExists : Bool) (lines : List (List Char)) : List SettingValue :=
  if fileExists then
    match _load_saved_settings lines with
    | some s => s
    | none => settings_defaults
  else settings_defaults

/-! ## Calendar dates and the date-expression parser -/

/-- A calendar date, for the user-facing date parser. -/
structure YMD where
  year : Nat
  month : Nat
  day : Nat
deriving DecidableEq, Repr

/-- Gregorian leap-year rule (as in Python's `datetime`). -/
def isLeap (y : Nat) : Bool :=
  y % 4 = 0 && (y % 100 ≠ 0 || y % 400 = 0)

/-- Days in a month (0 for an invalid month number). -/
def daysInMonth (y m : Nat) : Nat :=
  match m with
  | 1 => 31 | 2 => if isLeap y then 29 else 28 | 3 => 31 | 4 => 30
  | 5 => 31 | 6 => 30 | 7 => 31 | 8 => 31 | 9 => 30 | 10 => 31
  | 11 => 30 | 12 => 31
  | _ => 0

/-- Validity of a `datetime.date` (year 1–9999, valid month and day). -/
def dateValid (t : YMD) : Bool :=
  1 ≤ t.year && t.year ≤ 9999 && 1 ≤ t.month && t.month ≤ 12 &&
    1 ≤ t.day && t.day ≤ daysInMonth t.year t.month

/-- Date comparison `a < b`. -/
def ltYMD (a b : YMD) : Bool :=
  a.year < b.year ||
    (a.year = b.year && (a.month < b.month || (a.month = b.month && a.day < b.day)))

/-- The calendar successor of a date (without range checking). -/
def nextDateRaw (t : YMD) : YMD :=
  if t.day < daysInMonth t.year t.month then ⟨t.year, t.month, t.day + 1⟩
  else if t.month < 12 then ⟨t.year, t.month + 1, 1⟩
  else ⟨t.year + 1, 1, 1⟩

/-- The calendar predecessor of a date (without range checking). -/
def prevDateRaw (t : YMD) : YMD :=
  if 1 < t.day then ⟨t.year, t.month, t.day - 1⟩
  else if 1 < t.month then ⟨t.year, t.month - 1, daysInMonth t.year (t.month - 1)⟩
  else ⟨t.year - 1, 12, 31⟩

/-- `t + timedelta(n)` for `n ≥ 0`; `none` models the `OverflowError`
raised when the result would leave the supported range. -/
def pyAddDays (t : YMD) : Nat → Option YMD
  | 0 => some t
  | n + 1 =>
    let t' := nextDateRaw t
    if dateValid t' then pyAddDays t' n else none

/-- `t - timedelta(n)` for `n ≥ 0`; `none` on leaving the supported range. -/
def pySubDays (t : YMD) : Nat → Option YMD
  | 0 => some t
  | n + 1 =>
    let t' := prevDateRaw t
    if dateValid t' then pySubDays t' n else none

/-- `t + timedelta(n)` for a possibly negative `n`. -/
def pyAddDaysInt (t : YMD) (n : Int) : Option YMD :=
  if 0 ≤ n then pyAddDays t n.toNat else pySubDays t (-n).toNat

/-- `date.fromisoformat` restricted to the dashed form the program feeds
it: exactly `YYYY-MM-DD` with zero-padded fields, validated as a calendar
date; anything else raises (`none`). -/
def fromisoformat (l : List Char) : Option YMD :=
  match pySplitOne '-' l with
  | [ys, ms, ds] =>
    if ys.length = 4 ∧ ms.length = 2 ∧ ds.length = 2 ∧
        ys.all Char.isDigit ∧ ms.all Char.isDigit ∧ ds.all Char.isDigit then
      let t : YMD := ⟨digitsToNat ys, digitsToNat ms, digitsToNat ds⟩
      if dateValid t then some t else none
    else none
  | _ => none

/-- `AgendaCommandLineController._parse_date(date_string)`, with today's
date passed explicitly.  Follows the source's branches in order: the
`today`/`now` aliases, the substring test against `'tomorrow'`, the `+N`
form, then separator normalization, the two-part `MM-DD` form with year
inference, or the full three-part form. -/
def _parse_date (today : YMD) (date_string : List Char) : Option YMD :=
  if date_string = "today".data ∨ date_string = "now".data then
    some today
  else if pyInStr date_string "tomorrow".data then
    pyAddDays today 1
  else if date_string.contains '+' then
    match (pySplitOne '+' date_string).get? 1 with
    | none => none
    | some part =>
      match pyParseInt part with
      | none => none
      | some n => pyAddDaysInt today n
  else
    let ds1 := pyJoin ['-'] (pySplitOne '/' date_string)
    let ds2 := pyJoin ['-'] (pySplitOne '.' ds1)
    let date_split := pySplitOne '-' ds2
    if date_split.length ≤ 1 ∨ date_split.length > 3 then none
    else if date_split.length = 2 then
      let p1 := date_split.getD 0 []
      let p2 := date_split.getD 1 []
      let pp1 := if p1.length = 1 then '0' :: p1 else p1
      let pp2 := if p2.length = 1 then '0' :: p2 else p2
      -- after the two padding steps, the working string is the padded
      -- parts rejoined when any padding happened, and `ds2` otherwise
      -- (in which case the two coincide, `ds2` having exactly one dash)
      let dstr := if p1.length = 1 ∨ p2.length = 1 then pp1 ++ '-' :: pp2 else ds2
      let year := today.year
      match fromisoformat (natDigits year ++ '-' :: dstr) with
      | none => none
      | some composed =>
        if ltYMD composed today then fromisoformat (natDigits (year + 1) ++ '-' :: dstr)
        else fromisoformat (natDigits year ++ '-' :: dstr)
    else fromisoformat ds2

/-! ## Lemmas about the mapping primitives -/

theorem lookupA_setA (m : List (Int × List Task)) (d d' : Int) (v : List Task) :
    lookupA (setA m d v) d' = if d' = d then some v else lookupA m d' := by
  induction m with
  | nil =>
    simp only [setA, lookupA]
    split_ifs <;> first | rfl | omega
  | cons kv r ih =>
    obtain ⟨k, w⟩ := kv
    by_cases hk : k = d
    · subst hk
      simp only [setA, if_pos rfl, lookupA]
      split_ifs <;> first | rfl | omega
    · simp only [setA, if_neg hk, lookupA, ih]
      split_ifs <;> first | rfl | omega

theorem lookupA_modifyA (m : List (Int × List Task)) (d d' : Int) (f : List Task → List Task) :
    lookupA (modifyA m d f) d' =
      if d' = d then (lookupA m d).map f else lookupA m d' := by
  induction m with
  | nil =>
    simp only [modifyA, lookupA, Option.map_none']
    split_ifs <;> rfl
  | cons kv r ih =>
    obtain ⟨k, w⟩ := kv
    by_cases hk : k = d
    · subst hk
      simp only [modifyA, if_pos rfl, lookupA]
      split_ifs <;> first | rfl | omega
    · simp only [modifyA, if_neg hk, lookupA, ih]
      split_ifs <;> first | rfl | omega

theorem containsA_eq_true_iff (m : List (Int × List Task)) (d : Int) :
    containsA m d = true ↔ ∃ v, lookupA m d = some v := by
  unfold containsA
  cases h : lookupA m d <;> simp [h]

theorem containsA_setA (m : List (Int × List Task)) (d d' : Int) (v : List Task) :
    containsA (setA m d v) d' = if d' = d then true else containsA m d' := by
  unfold containsA
  rw [lookupA_setA]
  split_ifs <;> simp

theorem containsA_modifyA (m : List (Int × List Task)) (d d' : Int) (f : List Task → List Task) :
    containsA (modifyA m d f) d' = containsA m d' := by
  unfold containsA
  rw [lookupA_modifyA]
  split_ifs with h
  · subst h; cases hl : lookupA m d' <;> simp [hl]
  · rfl

theorem lookupA_addDaysLoop (m : List (Int × List Task)) (x : Int) (fuel : Nat) (d : Int) :
    lookupA (addDaysLoop m x fuel) d =
      if containsA m d then lookupA m d
      else if x ≤ d ∧ d < x + fuel then some [] else none := by
  induction fuel generalizing m x with
  | zero =>
    unfold addDaysLoop
    by_cases hd : containsA m d
    · rw [if_pos hd]
    · rw [if_neg hd, if_neg (by push_cast; omega)]
      cases hl : lookupA m d with
      | none => rfl
      | some v => exact absurd ((containsA_eq_true_iff m d).mpr ⟨v, hl⟩) hd
  | succ n ih =>
    unfold addDaysLoop
    rw [ih]
    by_cases hc : containsA m x
    · rw [if_pos hc]
      by_cases hd : containsA m d
      · rw [if_pos hd, if_pos hd]
      · rw [if_neg hd, if_neg hd]
        have hdx : d ≠ x := by
          intro h; rw [h] at hd; exact hd hc
        split_ifs <;> first | rfl | (exfalso; omega)
    · rw [if_neg hc, containsA_setA, lookupA_setA]
      by_cases hdx : d = x
      · subst hdx
        simp only [if_pos rfl]
        rw [if_neg hc]
        rw [if_pos (show d ≤ d ∧ d < d + ((n + 1 : Nat) : Int) from ⟨le_rfl, by push_cast; omega⟩)]
        simp
      · simp only [if_neg hdx]
        by_cases hd : containsA m d
        · rw [if_pos hd, if_pos hd]
        · rw [if_neg hd, if_neg hd]
          split_ifs <;> first | rfl | (exfalso; omega)

theorem lookupA_add_days (m : List (Int × List Task)) (fromD toD d : Int) :
    lookupA (_add_days m fromD toD) d =
      if containsA m d then lookupA m d
      else if fromD ≤ d ∧ d ≤ toD then some [] else none := by
  unfold _add_days
  rw [lookupA_addDaysLoop]
  by_cases hd : containsA m d
  · rw [if_pos hd, if_pos hd]
  · rw [if_neg hd, if_neg hd]
    split_ifs with h1 h2 <;> first | rfl | (exfalso; omega)

theorem containsA_add_days (m : List (Int × List Task)) (fromD toD d : Int) :
    containsA (_add_days m fromD toD) d =
      (containsA m d || decide (fromD ≤ d ∧ d ≤ toD)) := by
  rw [show containsA (_add_days m fromD toD) d =
        (lookupA (_add_days m fromD toD) d).isSome from rfl]
  rw [lookupA_add_days]
  by_cases hd : containsA m d
  · rw [if_pos hd, hd, Bool.true_or]
    exact hd
  · have hfalse : containsA m d = false := by
      cases h : containsA m d
      · rfl
      · exact absurd h hd
    rw [if_neg hd, hfalse, Bool.false_or]
    split_ifs with h <;> simp [h]

theorem addDaysLoop_eq_self (m : List (Int × List Task)) (x : Int) (fuel : Nat)
    (h : ∀ e : Int, x ≤ e → e < x + fuel → containsA m e = true) :
    addDaysLoop m x fuel = m := by
  induction fuel generalizing x with
  | zero => rfl
  | succ n ih =>
    unfold addDaysLoop
    rw [if_pos (h x le_rfl (by push_cast; omega))]
    exact ih (x + 1) (fun e h1 h2 => h e (by omega) (by push_cast at h2 ⊢; omega))

theorem add_days_eq_self (m : List (Int × List Task)) (fromD toD : Int)
    (h : ∀ e : Int, fromD ≤ e → e ≤ toD → containsA m e = true) :
    _add_days m fromD toD = m :=
  addDaysLoop_eq_self m fromD _ (fun e h1 h2 => h e h1 (by omega))

/-! ## The refresh operation -/

theorem Agenda.eta (a : Agenda) :
    ({ agenda := a.agenda, farthest_date := a.farthest_date,
       earliest_date := a.earliest_date } : Agenda) = a := rfl

theorem contains_ensure_today (today : Int) (m : List (Int × List Task)) :
    containsA (if containsA m today then m else setA m today []) today = true := by
  by_cases h : containsA m today
  · rw [if_pos h]; exact h
  · rw [if_neg h, containsA_setA, if_pos rfl]

theorem refresh_farthest (today : Int) (a : Agenda) :
    (refresh_today_date today a).farthest_date = max a.farthest_date today := by
  unfold refresh_today_date
  dsimp only
  rcases lt_trichotomy a.farthest_date today with h | h | h
  · rw [if_pos h]
    exact (max_eq_right h.le).symm
  · rw [h, if_neg (lt_irrefl today), if_neg (lt_irrefl today)]
    exact (max_self today).symm
  · rw [if_neg (by omega), if_pos h]
    exact (max_eq_left h.le).symm

theorem refresh_earliest (today : Int) (a : Agenda) :
    (refresh_today_date today a).earliest_date = a.earliest_date := by
  unfold refresh_today_date
  dsimp only
  split_ifs <;> rfl

theorem refresh_contains_today (today : Int) (a : Agenda) :
    containsA (refresh_today_date today a).agenda today = true := by
  unfold refresh_today_date
  dsimp only
  by_cases hc : containsA a.agenda today
  · rw [if_pos hc]
    split_ifs with h1 h2 <;> dsimp only
    · exact hc
    · rw [containsA_add_days, hc, Bool.true_or]
    · exact hc
  · rw [if_neg hc]
    split_ifs with h1 h2 <;> dsimp only
    · rw [containsA_setA, if_pos rfl]
    · rw [containsA_add_days, containsA_setA, if_pos rfl, Bool.true_or]
    · rw [containsA_setA, if_pos rfl]

theorem refresh_contains_range (today : Int) (a : Agenda) (e : Int)
    (h1 : today ≤ e) (h2 : e ≤ (refresh_today_date today a).farthest_date) :
    containsA (refresh_today_date today a).agenda e = true := by
  rw [refresh_farthest] at h2
  have hmax : max a.farthest_date today = a.farthest_date ∨
      max a.farthest_date today = today := max_choice _ _
  have hmax1 : a.farthest_date ≤ max a.farthest_date today := le_max_left _ _
  have hmax2 : today ≤ max a.farthest_date today := le_max_right _ _
  unfold refresh_today_date
  dsimp only
  by_cases hc : containsA a.agenda today
  · rw [if_pos hc]
    split_ifs with hf1 hf2 <;> dsimp only
    · have he : e = today := by omega
      subst he; exact hc
    · rw [containsA_add_days]
      have hcond : today ≤ e ∧ e ≤ a.farthest_date := by omega
      simp [hcond]
    · have he : e = today := by omega
      subst he; exact hc
  · rw [if_neg hc]
    split_ifs with hf1 hf2 <;> dsimp only
    · have he : e = today := by omega
      subst he; rw [containsA_setA, if_pos rfl]
    · rw [containsA_add_days]
      have hcond : today ≤ e ∧ e ≤ a.farthest_date := by omega
      simp [hcond]
    · have he : e = today := by omega
      subst he; rw [containsA_setA, if_pos rfl]

theorem refresh_of_contains (today : Int) (b : Agenda)
    (hc : containsA b.agenda today = true) :
    refresh_today_date today b =
      if b.farthest_date < today then ⟨b.agenda, today, b.earliest_date⟩
      else if b.farthest_date > today then
        ⟨_add_days b.agenda today b.farthest_date, b.farthest_date, b.earliest_date⟩
      else b := by
  unfold refresh_today_date
  dsimp only
  rw [if_pos hc]

/-- C9: with the current date held fixed, `refresh_today_date` is
idempotent — a second call returns exactly the state produced by the
first — and after one call today is tracked (an empty entry having been
created if needed) and `latest_date ≥ today`. -/
theorem C9_refresh_today_idempotent (today : Int) (a : Agenda) :
    refresh_today_date today (refresh_today_date today a) = refresh_today_date today a ∧
    containsA (refresh_today_date today a).agenda today = true ∧
    today ≤ (refresh_today_date today a).farthest_date := by
  have hge : today ≤ (refresh_today_date today a).farthest_date := by
    rw [refresh_farthest]; exact le_max_right _ _
  refine ⟨?_, refresh_contains_today today a, hge⟩
  rw [refresh_of_contains today _ (refresh_contains_today today a)]
  rw [if_neg (by omega : ¬ (refresh_today_date today a).farthest_date < today)]
  by_cases hgt : (refresh_today_date today a).farthest_date > today
  · rw [if_pos hgt,
      add_days_eq_self _ _ _ (fun e he1 he2 => refresh_contains_range today a e he1 he2)]
  · rw [if_neg hgt]

/-! ## Error atomicity of the mutating operations -/

theorem add_task_error (today : Int) (a : Agenda) (day : Int) (description : String)
    (status : TaskStatus) (ae : Agenda)
    (h : add_task today a day description status = .error ae) : ae = a := by
  unfold add_task at h
  dsimp only at h
  by_cases hc : containsA a.agenda day
  · rw [if_pos hc] at h
    split_ifs at h with hdup
    exact (Except.error.inj h).symm
  · rw [if_neg hc] at h
    have hdup : _check_not_duplicate (setA a.agenda day []) day description = false := by
      unfold _check_not_duplicate
      rw [lookupA_setA, if_pos rfl]
      simp
    rw [hdup, if_neg Bool.false_ne_true] at h
    exact Except.noConfusion h

theorem remove_task_error (a : Agenda) (day task_index : Int) (ae : Agenda)
    (h : remove_task a day task_index = .error ae) : ae = a := by
  unfold remove_task at h
  cases hl : lookupA a.agenda day with
  | none =>
    rw [hl] at h
    dsimp only at h
    exact (Except.error.inj h).symm
  | some ts =>
    rw [hl] at h
    dsimp only at h
    by_cases hi : 0 ≤ task_index ∧ task_index < (ts.length : Int)
    · rw [dif_pos hi] at h
      exact Except.noConfusion h
    · rw [dif_neg hi] at h
      exact (Except.error.inj h).symm

theorem modify_task_error (a : Agenda) (day task_index : Int) (new_description : String)
    (ae : Agenda) (h : modify_task a day task_index new_description = .error ae) : ae = a := by
  unfold modify_task at h
  cases hl : lookupA a.agenda day with
  | none =>
    rw [hl] at h
    dsimp only at h
    exact (Except.error.inj h).symm
  | some ts =>
    rw [hl] at h
    dsimp only at h
    by_cases hi : 0 ≤ task_index ∧ task_index < (ts.length : Int)
    · rw [dif_pos hi] at h
      split_ifs at h with hdup
      exact (Except.error.inj h).symm
    · rw [dif_neg hi] at h
      exact (Except.error.inj h).symm

theorem update_task_status_error (a : Agenda) (day task_index : Int) (new_status : TaskStatus)
    (ae : Agenda) (h : update_task_status a day task_index new_status = .error ae) : ae = a := by
  unfold update_task_status at h
  cases hl : lookupA a.agenda day with
  | none =>
    rw [hl] at h
    dsimp only at h
    exact (Except.error.inj h).symm
  | some ts =>
    rw [hl] at h
    dsimp only at h
    by_cases hi : 0 ≤ task_index ∧ task_index < (ts.length : Int)
    · rw [dif_pos hi] at h
      exact Except.noConfusion h
    · rw [dif_neg hi] at h
      exact (Except.error.inj h).symm

theorem update_status_item_error (a : Agenda) (day index : Int) (ae : Agenda)
    (h : update_status_item a day index = .error ae) : ae = a := by
  unfold update_status_item at h
  cases hpi : pyIndex (get_tasks a day) index with
  | none =>
    rw [hpi] at h
    dsimp only at h
    exact (Except.error.inj h).symm
  | some old =>
    rw [hpi] at h
    dsimp only at h
    cases hu : update_task_status a day index (next_enum old.2) with
    | error ae2 =>
      rw [hu] at h
      dsimp only at h
      exact (Except.error.inj h).symm.trans (update_task_status_error a day index _ ae2 hu)
    | ok p =>
      obtain ⟨a2, st2⟩ := p
      rw [hu] at h
      dsimp only at h
      exact Except.noConfusion h

/-- C5: whenever one of the four mutating commands raises (duplicate
description, untracked day, or out-of-range index), the carried error
state is exactly the state before the call, and the `try/except` dispatch
boundary returns control to the prompt (`quit = false`) with that
unchanged state rather than crashing. -/
theorem C5_mutation_errors_atomic (today : Int) (a : Agenda) (c : MutCmd) (ae : Agenda)
    (h : runMut today a c = .error ae) :
    ae = a ∧ mainStep today a c = (a, false) := by
  have hae : ae = a := by
    cases c with
    | add day desc => exact add_task_error today a day desc TaskStatus.NOT_STARTED ae h
    | remove day i =>
      unfold runMut at h
      dsimp only at h
      cases hr : remove_task a day i with
      | error ae2 =>
        rw [hr] at h
        dsimp only [Except.map] at h
        exact (Except.error.inj h).symm.trans (remove_task_error a day i ae2 hr)
      | ok p =>
        rw [hr] at h
        dsimp only [Except.map] at h
        exact Except.noConfusion h
    | modify day i d =>
      unfold runMut at h
      dsimp only at h
      cases hr : modify_task a day i d with
      | error ae2 =>
        rw [hr] at h
        dsimp only [Except.map] at h
        exact (Except.error.inj h).symm.trans (modify_task_error a day i d ae2 hr)
      | ok p =>
        rw [hr] at h
        dsimp only [Except.map] at h
        exact Except.noConfusion h
    | updateStatus day i =>
      exact update_status_item_error a day i ae h
  refine ⟨hae, ?_⟩
  unfold mainStep
  rw [h, hae]

/-! ## Status cycling -/

theorem next_enum_cycle (s : TaskStatus) :
    next_enum (next_enum (next_enum s)) = s := by
  cases s <;> rfl

theorem set_get_self {α : Type} (l : List α) (n : Nat) (h : n < l.length) :
    l.set n (l.get ⟨n, h⟩) = l := by
  induction l generalizing n with
  | nil => exact absurd h (Nat.not_lt_zero n)
  | cons x r ih =>
    cases n with
    | zero => rfl
    | succ k =>
      simp only [List.set]
      have hh : k < r.length := Nat.lt_of_succ_lt_succ (by simpa using h)
      rw [show (x :: r).get ⟨k + 1, h⟩ = r.get ⟨k, hh⟩ from rfl, ih k hh]

theorem get_set_same {α : Type} (l : List α) (n : Nat) (v : α) (hn : n < (l.set n v).length) :
    (l.set n v).get ⟨n, hn⟩ = v := by
  induction l generalizing n with
  | nil => simp at hn
  | cons x r ih =>
    cases n with
    | zero => rfl
    | succ k => exact ih k (by simpa using hn)

theorem pyIndex_of_nonneg {α : Type} (l : List α) (i : Int) (h0 : 0 ≤ i)
    (h1 : i < (l.length : Int)) (hn : i.toNat < l.length) :
    pyIndex l i = some (l.get ⟨i.toNat, hn⟩) := by
  have hj : (if i < 0 then (l.length : Int) + i else i) = i := if_neg (by omega)
  unfold pyIndex
  dsimp only
  simp only [hj]
  rw [dif_pos ⟨h0, h1⟩]

theorem update_task_status_ok (a : Agenda) (day i : Int) (ts : List Task) (st : TaskStatus)
    (hts : lookupA a.agenda day = some ts) (h0 : 0 ≤ i) (h1 : i < (ts.length : Int))
    (hn : i.toNat < ts.length) :
    update_task_status a day i st =
      .ok ({ a with
              agenda := modifyA a.agenda day
                (fun l => l.set i.toNat ((ts.get ⟨i.toNat, hn⟩).1, st)) },
           (ts.get ⟨i.toNat, hn⟩).2) := by
  unfold update_task_status
  rw [hts]
  dsimp only
  rw [dif_pos ⟨h0, h1⟩]

theorem update_status_item_ok (a : Agenda) (day i : Int) (ts : List Task)
    (hts : lookupA a.agenda day = some ts) (h0 : 0 ≤ i) (h1 : i < (ts.length : Int))
    (hn : i.toNat < ts.length) :
    update_status_item a day i =
      .ok { a with
             agenda := modifyA a.agenda day
               (fun l => l.set i.toNat ((ts.get ⟨i.toNat, hn⟩).1,
                 next_enum (ts.get ⟨i.toNat, hn⟩).2)) } := by
  have hg : get_tasks a day = ts := by
    unfold get_tasks; rw [hts]; rfl
  unfold update_status_item
  rw [hg, pyIndex_of_nonneg ts i h0 h1 hn]
  dsimp only
  rw [update_task_status_ok a day i ts _ hts h0 h1 hn]

/-- C8: on a tracked day with a valid index, the dispatcher's
status-update step (`update_status_item`, whose `next_enum` table maps
NOT_STARTED to IN_PROGRESS, IN_PROGRESS to DONE, and DONE back to
NOT_STARTED) applied three times succeeds each time and restores the
day's task list exactly — original status and description — leaving the
cached range untouched. -/
theorem C8_status_cycle_three (a : Agenda) (day i : Int) (ts : List Task)
    (hts : lookupA a.agenda day = some ts) (h0 : 0 ≤ i) (h1 : i < (ts.length : Int)) :
    ∃ a1 a2 a3,
      update_status_item a day i = .ok a1 ∧
      update_status_item a1 day i = .ok a2 ∧
      update_status_item a2 day i = .ok a3 ∧
      lookupA a3.agenda day = some ts ∧
      a3.farthest_date = a.farthest_date ∧ a3.earliest_date = a.earliest_date := by
  have hn : i.toNat < ts.length := by omega
  set e := ts.get ⟨i.toNat, hn⟩ with he
  -- first application
  set ts1 : List Task := ts.set i.toNat (e.1, next_enum e.2) with hts1def
  have hstep1 := update_status_item_ok a day i ts hts h0 h1 hn
  set a1 : Agenda := { a with agenda := modifyA a.agenda day (fun l => l.set i.toNat (e.1, next_enum e.2)) } with ha1
  have hlook1 : lookupA a1.agenda day = some ts1 := by
    rw [ha1]
    dsimp only
    rw [lookupA_modifyA, if_pos rfl, hts]
    rfl
  have hlen1 : ts1.length = ts.length := by
    rw [hts1def]; exact List.length_set ts _ _
  have hn1 : i.toNat < ts1.length := by omega
  have h11 : i < (ts1.length : Int) := by
    rw [hlen1]; exact h1
  have hget1 : ts1.get ⟨i.toNat, hn1⟩ = (e.1, next_enum e.2) :=
    get_set_same ts i.toNat (e.1, next_enum e.2) hn1
  -- second application
  set ts2 : List Task := ts.set i.toNat (e.1, next_enum (next_enum e.2)) with hts2def
  have hstep2 := update_status_item_ok a1 day i ts1 hlook1 h0 h11 hn1
  rw [hget1] at hstep2
  set a2 : Agenda := { a1 with agenda := modifyA a1.agenda day (fun l => l.set i.toNat (e.1, next_enum (next_enum e.2))) } with ha2
  have hlook2 : lookupA a2.agenda day = some ts2 := by
    rw [ha2]
    dsimp only
    rw [lookupA_modifyA, if_pos rfl, hlook1]
    dsimp only [Option.map_some']
    rw [hts1def, hts2def, List.set_set]
  have hlen2 : ts2.length = ts.length := by
    rw [hts2def]; exact List.length_set ts _ _
  have hn2 : i.toNat < ts2.length := by omega
  have h12 : i < (ts2.length : Int) := by
    rw [hlen2]; exact h1
  have hget2 : ts2.get ⟨i.toNat, hn2⟩ = (e.1, next_enum (next_enum e.2)) :=
    get_set_same ts i.toNat _ hn2
  -- third application
  have hstep3 := update_status_item_ok a2 day i ts2 hlook2 h0 h12 hn2
  rw [hget2] at hstep3
  set a3 : Agenda := { a2 with agenda := modifyA a2.agenda day (fun l => l.set i.toNat (e.1, next_enum (next_enum (next_enum e.2)))) } with ha3
  refine ⟨a1, a2, a3, hstep1, hstep2, hstep3, ?_, rfl, rfl⟩
  rw [ha3]
  dsimp only
  rw [lookupA_modifyA, if_pos rfl, hlook2]
  dsimp only [Option.map_some']
  rw [hts2def, List.set_set, next_enum_cycle, he]
  rw [show (ts.get ⟨i.toNat, hn⟩).1 = (ts.get ⟨i.toNat, hn⟩).1 from rfl]
  rw [show ((ts.get ⟨i.toNat, hn⟩).1, (ts.get ⟨i.toNat, hn⟩).2) = ts.get ⟨i.toNat, hn⟩ from rfl]
  rw [set_get_self ts i.toNat hn]

/-- C8 witness: a concrete three-fold application on a one-task day. -/
theorem C8_status_cycle_three_witness :
    ∃ a1 a2 a3,
      update_status_item ⟨[(0, [("t", TaskStatus.NOT_STARTED)])], 0, 0⟩ 0 0 = .ok a1 ∧
      update_status_item a1 0 0 = .ok a2 ∧
      update_status_item a2 0 0 = .ok a3 ∧
      lookupA a3.agenda 0 = some [("t", TaskStatus.NOT_STARTED)] ∧
      a3.farthest_date = 0 ∧ a3.earliest_date = 0 :=
  C8_status_cycle_three ⟨[(0, [("t", TaskStatus.NOT_STARTED)])], 0, 0⟩ 0 0
    [("t", TaskStatus.NOT_STARTED)] rfl (by decide) (by decide)

/-! ## The duplicate rule of modify_task -/

/-- C4 counterexample: the duplicate check of `modify_task` inspects the
whole task list of the day, including the task being renamed, so renaming
the only task of a day to its own current description raises even though
no task at a different index carries that description. -/
theorem C4_counterexample :
    modify_task ⟨[(0, [("a", TaskStatus.NOT_STARTED)])], 0, 0⟩ 0 0 "a" =
      .error ⟨[(0, [("a", TaskStatus.NOT_STARTED)])], 0, 0⟩ := by
  rfl

/-- C4 (amended): on a tracked day with a valid index,
`modify_task(day, index, new_description)` raises the duplicate-task
error exactly when `new_description` equals the description of any task
of that day — including the task at `index` itself, so renaming a task
to its own current description always raises; on success the prior
description is returned and the task's status is preserved. -/
theorem C4_modify_task_duplicate_rule (a : Agenda) (day i : Int) (ts : List Task)
    (hts : lookupA a.agenda day = some ts) (h0 : 0 ≤ i) (h1 : i < (ts.length : Int)) :
    (∀ new : String, new ∈ ts.map Prod.fst → modify_task a day i new = .error a) ∧
    (∀ new : String, new ∉ ts.map Prod.fst →
      ∃ a', modify_task a day i new =
          .ok (a', (ts.get ⟨i.toNat, by omega⟩).1) ∧
        lookupA a'.agenda day =
          some (ts.set i.toNat (new, (ts.get ⟨i.toNat, by omega⟩).2)) ∧
        a'.farthest_date = a.farthest_date ∧ a'.earliest_date = a.earliest_date) := by
  have hn : i.toNat < ts.length := by omega
  constructor
  · intro new hmem
    have hdup : _check_not_duplicate a.agenda day new = true := by
      unfold _check_not_duplicate
      rw [hts]
      simp only [Option.getD_some]
      exact decide_eq_true hmem
    unfold modify_task
    rw [hts]
    dsimp only
    rw [dif_pos ⟨h0, h1⟩, hdup, if_pos rfl]
  · intro new hmem
    have hdup : _check_not_duplicate a.agenda day new = false := by
      unfold _check_not_duplicate
      rw [hts]
      simp only [Option.getD_some]
      exact decide_eq_false hmem
    refine ⟨{ a with
               agenda := modifyA a.agenda day
                 (fun l => l.set i.toNat (new, (ts.get ⟨i.toNat, hn⟩).2)) }, ?_, ?_, rfl, rfl⟩
    · unfold modify_task
      rw [hts]
      dsimp only
      rw [dif_pos ⟨h0, h1⟩, hdup, if_neg Bool.false_ne_true]
    · dsimp only
      rw [lookupA_modifyA, if_pos rfl, hts]
      rfl

/-- C4 witness: on a day holding tasks "a" and "b", renaming index 1 to
"a" raises with the state unchanged (the error branch of the rule). -/
theorem C4_modify_task_duplicate_rule_witness :
    modify_task ⟨[(0, [("a", TaskStatus.NOT_STARTED), ("b", TaskStatus.DONE)])], 0, 0⟩ 0 1 "a" =
      .error ⟨[(0, [("a", TaskStatus.NOT_STARTED), ("b", TaskStatus.DONE)])], 0, 0⟩ :=
  (C4_modify_task_duplicate_rule
      ⟨[(0, [("a", TaskStatus.NOT_STARTED), ("b", TaskStatus.DONE)])], 0, 0⟩ 0 1
      [("a", TaskStatus.NOT_STARTED), ("b", TaskStatus.DONE)]
      rfl (by decide) (by decide)).1 "a" (by decide)

/-- C5 witness: removing index 0 of an untracked day raises and the
dispatch step returns the unchanged blank agenda without quitting. -/
theorem C5_mutation_errors_atomic_witness :
    Agenda.init 0 = Agenda.init 0 ∧
    mainStep 0 (Agenda.init 0) (MutCmd.remove 5 0) = (Agenda.init 0, false) :=
  C5_mutation_errors_atomic 0 (Agenda.init 0) (MutCmd.remove 5 0) (Agenda.init 0) (by rfl)

/-! ## The contiguity invariant over operation sequences -/

theorem lookupA_eq_none (m : List (Int × List Task)) (d : Int)
    (h : containsA m d = false) : lookupA m d = none := by
  unfold containsA at h
  cases hl : lookupA m d with
  | none => rfl
  | some v => rw [hl] at h; simp at h

theorem refresh_inv (today : Int) (b : Agenda) :
    today ≤ (refresh_today_date today b).farthest_date ∧
    ∀ d, today ≤ d → d ≤ (refresh_today_date today b).farthest_date →
      containsA (refresh_today_date today b).agenda d = true :=
  ⟨by rw [refresh_farthest]; exact le_max_right _ _,
   fun d h1 h2 => refresh_contains_range today b d h1 h2⟩

theorem add_task_ok_shape (today : Int) (a : Agenda) (day : Int) (description : String)
    (status : TaskStatus) (a' : Agenda)
    (h : add_task today a day description status = .ok a') :
    ∃ b, a' = refresh_today_date today b := by
  unfold add_task at h
  dsimp only at h
  split_ifs at h <;> exact ⟨_, (Except.ok.inj h).symm⟩

theorem remove_task_ok_preserves (a : Agenda) (day i : Int)
    (p : Agenda × String × TaskStatus) (h : remove_task a day i = .ok p) :
    (∀ e, containsA p.1.agenda e = containsA a.agenda e) ∧
      p.1.farthest_date = a.farthest_date := by
  unfold remove_task at h
  cases hl : lookupA a.agenda day with
  | none =>
    rw [hl] at h
    dsimp only at h
    exact Except.noConfusion h
  | some ts =>
    rw [hl] at h
    dsimp only at h
    by_cases hi : 0 ≤ i ∧ i < (ts.length : Int)
    · rw [dif_pos hi] at h
      cases h
      exact ⟨fun e => containsA_modifyA a.agenda day e _, rfl⟩
    · rw [dif_neg hi] at h
      exact Except.noConfusion h

theorem modify_task_ok_preserves (a : Agenda) (day i : Int) (d : String)
    (p : Agenda × String) (h : modify_task a day i d = .ok p) :
    (∀ e, containsA p.1.agenda e = containsA a.agenda e) ∧
      p.1.farthest_date = a.farthest_date := by
  unfold modify_task at h
  cases hl : lookupA a.agenda day with
  | none =>
    rw [hl] at h
    dsimp only at h
    exact Except.noConfusion h
  | some ts =>
    rw [hl] at h
    dsimp only at h
    by_cases hi : 0 ≤ i ∧ i < (ts.length : Int)
    · rw [dif_pos hi] at h
      split_ifs at h with hdup
      cases h
      exact ⟨fun e => containsA_modifyA a.agenda day e _, rfl⟩
    · rw [dif_neg hi] at h
      exact Except.noConfusion h

theorem update_task_status_ok_preserves (a : Agenda) (day i : Int) (st : TaskStatus)
    (p : Agenda × TaskStatus) (h : update_task_status a day i st = .ok p) :
    (∀ e, containsA p.1.agenda e = containsA a.agenda e) ∧
      p.1.farthest_date = a.farthest_date := by
  unfold update_task_status at h
  cases hl : lookupA a.agenda day with
  | none =>
    rw [hl] at h
    dsimp only at h
    exact Except.noConfusion h
  | some ts =>
    rw [hl] at h
    dsimp only at h
    by_cases hi : 0 ≤ i ∧ i < (ts.length : Int)
    · rw [dif_pos hi] at h
      cases h
      exact ⟨fun e => containsA_modifyA a.agenda day e _, rfl⟩
    · rw [dif_neg hi] at h
      exact Except.noConfusion h

theorem applyOp_inv (today : Int) (a : Agenda) (op : AgendaOp)
    (hfar : today ≤ a.farthest_date)
    (hrange : ∀ d, today ≤ d → d ≤ a.farthest_date → containsA a.agenda d = true) :
    today ≤ (applyOp today a op).farthest_date ∧
    ∀ d, today ≤ d → d ≤ (applyOp today a op).farthest_date →
      containsA (applyOp today a op).agenda d = true := by
  cases op with
  | add day desc st =>
    dsimp only [applyOp]
    cases hr : add_task today a day desc st with
    | ok a' =>
      obtain ⟨b, hb⟩ := add_task_ok_shape today a day desc st a' hr
      subst hb
      exact refresh_inv today b
    | error ae =>
      have hae : ae = a := add_task_error today a day desc st ae hr
      subst hae
      exact ⟨hfar, hrange⟩
  | remove day i =>
    dsimp only [applyOp]
    cases hr : remove_task a day i with
    | ok p =>
      obtain ⟨a', d0, s0⟩ := p
      obtain ⟨hk, hf⟩ := remove_task_ok_preserves a day i (a', d0, s0) hr
      dsimp only at hk hf
      refine ⟨by rw [hf]; exact hfar, fun d h1 h2 => ?_⟩
      rw [hk d]
      exact hrange d h1 (by rw [hf] at h2; exact h2)
    | error ae =>
      have hae : ae = a := remove_task_error a day i ae hr
      subst hae
      exact ⟨hfar, hrange⟩
  | modify day i dd =>
    dsimp only [applyOp]
    cases hr : modify_task a day i dd with
    | ok p =>
      obtain ⟨a', d0⟩ := p
      obtain ⟨hk, hf⟩ := modify_task_ok_preserves a day i dd (a', d0) hr
      dsimp only at hk hf
      refine ⟨by rw [hf]; exact hfar, fun d h1 h2 => ?_⟩
      rw [hk d]
      exact hrange d h1 (by rw [hf] at h2; exact h2)
    | error ae =>
      have hae : ae = a := modify_task_error a day i dd ae hr
      subst hae
      exact ⟨hfar, hrange⟩
  | update day i st =>
    dsimp only [applyOp]
    cases hr : update_task_status a day i st with
    | ok p =>
      obtain ⟨a', s0⟩ := p
      obtain ⟨hk, hf⟩ := update_task_status_ok_preserves a day i st (a', s0) hr
      dsimp only at hk hf
      refine ⟨by rw [hf]; exact hfar, fun d h1 h2 => ?_⟩
      rw [hk d]
      exact hrange d h1 (by rw [hf] at h2; exact h2)
    | error ae =>
      have hae : ae = a := update_task_status_error a day i st ae hr
      subst hae
      exact ⟨hfar, hrange⟩
  | refresh =>
    dsimp only [applyOp]
    exact refresh_inv today a

theorem foldl_applyOp_inv (today : Int) (ops : List AgendaOp) :
    ∀ a : Agenda,
      today ≤ a.farthest_date →
      (∀ d, today ≤ d → d ≤ a.farthest_date → containsA a.agenda d = true) →
      today ≤ (ops.foldl (applyOp today) a).farthest_date ∧
      ∀ d, today ≤ d → d ≤ (ops.foldl (applyOp today) a).farthest_date →
        containsA (ops.foldl (applyOp today) a).agenda d = true := by
  induction ops with
  | nil => exact fun a h1 h2 => ⟨h1, h2⟩
  | cons op rest ih =>
    intro a h1 h2
    have step := applyOp_inv today a op h1 h2
    exact ih (applyOp today a op) step.1 step.2

/-- C1 (amended): starting from a freshly constructed agenda and with
the current date fixed, after any sequence of `add_task`, `remove_task`,
`modify_task`, `update_task_status` and `refresh_today_date` operations,
every date `d` with `today ≤ d ≤ latest_date` has an entry in the
mapping.  The backward direction of the original claim is false:
`add_task` with a day strictly before `earliest_date` creates only that
day's entry and updates `earliest_date`, leaving the days strictly
between the new day and the old `earliest_date` untracked (see the
counterexample). -/
theorem C1_contiguity_from_today (today : Int) (ops : List AgendaOp) (d : Int)
    (h1 : today ≤ d) (h2 : d ≤ (runOps today ops).farthest_date) :
    containsA (runOps today ops).agenda d = true := by
  have hinit1 : today ≤ (Agenda.init today).farthest_date := le_rfl
  have hinit2 : ∀ e, today ≤ e → e ≤ (Agenda.init today).farthest_date →
      containsA (Agenda.init today).agenda e = true := by
    intro e he1 he2
    have he : e = today := le_antisymm he2 he1
    subst he
    simp [Agenda.init, containsA, lookupA]
  exact (foldl_applyOp_inv today ops (Agenda.init today) hinit1 hinit2).2 d h1 h2

/-- C1 witness: adding a task three days ahead on a fresh agenda tracks
the intermediate day 1. -/
theorem C1_contiguity_from_today_witness :
    containsA (runOps 0 [AgendaOp.add 3 "x" TaskStatus.NOT_STARTED]).agenda 1 = true :=
  C1_contiguity_from_today 0 [AgendaOp.add 3 "x" TaskStatus.NOT_STARTED] 1
    (by decide) (by decide)

/-- C1 counterexample: on a fresh agenda at day 0, `add_task` at day −3
(strictly before `earliest_date`) yields `earliest_date = −3` and
`latest_date = 0`, yet day −1, which lies strictly between them, has no
entry — the backward extension does not fill the gap, refuting the
claimed symmetric contiguity over `[earliest_date, latest_date]`. -/
theorem C1_counterexample :
    (runOps 0 [AgendaOp.add (-3) "x" TaskStatus.NOT_STARTED]).earliest_date = -3 ∧
    (runOps 0 [AgendaOp.add (-3) "x" TaskStatus.NOT_STARTED]).farthest_date = 0 ∧
    containsA (runOps 0 [AgendaOp.add (-3) "x" TaskStatus.NOT_STARTED]).agenda (-1) = false := by
  refine ⟨?_, ?_, ?_⟩ <;> rfl

/-! ## Forward extension of add_task -/

theorem containsA_false_of_not (m : List (Int × List Task)) (d : Int)
    (h : ¬ containsA m d = true) : containsA m d = false := by
  cases h2 : containsA m d
  · rfl
  · exact absurd h2 h

theorem lookupA_refresh (today : Int) (b : Agenda) (e : Int) :
    lookupA (refresh_today_date today b).agenda e =
      if containsA b.agenda e then lookupA b.agenda e
      else if e = today then some []
      else if today ≤ e ∧ e ≤ b.farthest_date then some []
      else none := by
  unfold refresh_today_date
  dsimp only
  by_cases hc : containsA b.agenda today
  · rw [if_pos hc]
    rcases lt_trichotomy b.farthest_date today with hf | hf | hf
    · rw [if_pos hf]
      dsimp only
      by_cases hce : containsA b.agenda e
      · rw [if_pos hce]
      · have het : e ≠ today := fun h => by rw [h] at hce; exact hce hc
        rw [if_neg hce, if_neg het, if_neg (by omega : ¬ (today ≤ e ∧ e ≤ b.farthest_date)),
          lookupA_eq_none b.agenda e (containsA_false_of_not _ _ hce)]
    · rw [if_neg (by omega : ¬ b.farthest_date < today),
        if_neg (by omega : ¬ b.farthest_date > today)]
      dsimp only
      by_cases hce : containsA b.agenda e
      · rw [if_pos hce]
      · have het : e ≠ today := fun h => by rw [h] at hce; exact hce hc
        rw [if_neg hce, if_neg het, if_neg (by omega : ¬ (today ≤ e ∧ e ≤ b.farthest_date)),
          lookupA_eq_none b.agenda e (containsA_false_of_not _ _ hce)]
    · rw [if_neg (by omega : ¬ b.farthest_date < today),
        if_pos (by omega : b.farthest_date > today)]
      dsimp only
      rw [lookupA_add_days]
      by_cases hce : containsA b.agenda e
      · rw [if_pos hce, if_pos hce]
      · have het : e ≠ today := fun h => by rw [h] at hce; exact hce hc
        rw [if_neg hce, if_neg hce, if_neg het]
  · rw [if_neg hc]
    rcases lt_trichotomy b.farthest_date today with hf | hf | hf
    · rw [if_pos hf]
      dsimp only
      rw [lookupA_setA]
      by_cases het : e = today
      · subst het
        simp [hc]
      · rw [if_neg het]
        by_cases hce : containsA b.agenda e
        · rw [if_pos hce]
        · rw [if_neg hce, if_neg het,
            if_neg (by omega : ¬ (today ≤ e ∧ e ≤ b.farthest_date)),
            lookupA_eq_none b.agenda e (containsA_false_of_not _ _ hce)]
    · rw [if_neg (by omega : ¬ b.farthest_date < today),
        if_neg (by omega : ¬ b.farthest_date > today)]
      dsimp only
      rw [lookupA_setA]
      by_cases het : e = today
      · subst het
        simp [hc]
      · rw [if_neg het]
        by_cases hce : containsA b.agenda e
        · rw [if_pos hce]
        · rw [if_neg hce, if_neg het,
            if_neg (by omega : ¬ (today ≤ e ∧ e ≤ b.farthest_date)),
            lookupA_eq_none b.agenda e (containsA_false_of_not _ _ hce)]
    · rw [if_neg (by omega : ¬ b.farthest_date < today),
        if_pos (by omega : b.farthest_date > today)]
      dsimp only
      rw [lookupA_add_days, containsA_setA, lookupA_setA]
      by_cases het : e = today
      · subst het
        simp [hc]
      · rw [if_neg het, if_neg het]
        by_cases hce : containsA b.agenda e
        · rw [if_pos hce, if_pos hce]
        · rw [if_neg hce, if_neg hce, if_neg het]

/-- C2: on an agenda satisfying the program's own invariant
`today ≤ latest_date`, a successful `add_task` at a day strictly after
`latest_date` appends the task to that day's list, creates an empty entry
for every previously untracked day strictly between the old `latest_date`
and `day`, sets `latest_date` to `day`, and leaves the entries of all
other tracked days unchanged. -/
theorem C2_add_task_forward_extension (today : Int) (a : Agenda) (day : Int)
    (description : String) (status : TaskStatus)
    (hfar : today ≤ a.farthest_date) (hday : a.farthest_date < day)
    (hdup : description ∉ (get_tasks a day).map Prod.fst) :
    ∃ a', add_task today a day description status = .ok a' ∧
      a'.farthest_date = day ∧
      get_tasks a' day = get_tasks a day ++ [(description, status)] ∧
      (∀ e, a.farthest_date < e → e < day → containsA a.agenda e = false →
        lookupA a'.agenda e = some []) ∧
      (∀ e, e ≠ day → containsA a.agenda e = true →
        lookupA a'.agenda e = lookupA a.agenda e) := by
  have htd : today < day := by omega
  set m : List (Int × List Task) :=
    if containsA a.agenda day then a.agenda else setA a.agenda day [] with hm
  have hmlook : lookupA m day = some (get_tasks a day) := by
    rw [hm]
    by_cases hc : containsA a.agenda day
    · rw [if_pos hc]
      obtain ⟨v, hv⟩ := (containsA_eq_true_iff _ _).mp hc
      unfold get_tasks
      rw [hv]
      rfl
    · rw [if_neg hc, lookupA_setA, if_pos rfl]
      unfold get_tasks
      rw [lookupA_eq_none _ _ (containsA_false_of_not _ _ hc)]
      rfl
  have hmlook_ne : ∀ e, e ≠ day → lookupA m e = lookupA a.agenda e := by
    intro e he
    rw [hm]
    by_cases hc : containsA a.agenda day
    · rw [if_pos hc]
    · rw [if_neg hc, lookupA_setA, if_neg he]
  have hdupf : _check_not_duplicate m day description = false := by
    unfold _check_not_duplicate
    rw [hmlook]
    simp only [Option.getD_some]
    exact decide_eq_false hdup
  have hshape : add_task today a day description status =
      .ok (refresh_today_date today
        ⟨_add_days (modifyA m day (fun l => l ++ [(description, status)])) a.farthest_date day,
         day, a.earliest_date⟩) := by
    unfold add_task
    dsimp only
    rw [← hm, hdupf, if_neg Bool.false_ne_true, if_pos hday]
  set m2 : List (Int × List Task) :=
    modifyA m day (fun l => l ++ [(description, status)]) with hm2
  have hcm2day : containsA m2 day = true := by
    rw [hm2]
    rw [containsA_modifyA]
    exact (containsA_eq_true_iff _ _).mpr ⟨_, hmlook⟩
  have hm2day : lookupA m2 day = some (get_tasks a day ++ [(description, status)]) := by
    rw [hm2, lookupA_modifyA, if_pos rfl, hmlook]
    rfl
  have hm2_ne : ∀ e, e ≠ day → lookupA m2 e = lookupA a.agenda e := by
    intro e he
    rw [hm2, lookupA_modifyA, if_neg he, hmlook_ne e he]
  have hcm2_ne : ∀ e, e ≠ day → containsA m2 e = containsA a.agenda e := by
    intro e he
    unfold containsA
    rw [hm2_ne e he]
  set b : Agenda := ⟨_add_days m2 a.farthest_date day, day, a.earliest_date⟩ with hb
  have hbfar : b.farthest_date = day := by rw [hb]
  have hbagenda : b.agenda = _add_days m2 a.farthest_date day := by rw [hb]
  have hcbday : containsA b.agenda day = true := by
    rw [hbagenda, containsA_add_days, hcm2day, Bool.true_or]
  refine ⟨refresh_today_date today b, hshape, ?_, ?_, ?_, ?_⟩
  · rw [refresh_farthest, hbfar]
    exact max_eq_left (by omega)
  · unfold get_tasks
    rw [lookupA_refresh, if_pos hcbday, hbagenda, lookupA_add_days, if_pos hcm2day, hm2day]
    rfl
  · intro e he1 he2 hce
    have hene : e ≠ day := by omega
    have hcm2e : containsA m2 e = false := by rw [hcm2_ne e hene, hce]
    have hcbe : containsA b.agenda e = true := by
      rw [hbagenda, containsA_add_days, hcm2e, Bool.false_or]
      exact decide_eq_true ⟨by omega, by omega⟩
    rw [lookupA_refresh, if_pos hcbe, hbagenda, lookupA_add_days, hcm2e]
    rw [if_neg Bool.false_ne_true, if_pos ⟨by omega, by omega⟩]
  · intro e hene hce
    have hcm2e : containsA m2 e = true := by rw [hcm2_ne e hene, hce]
    have hcbe : containsA b.agenda e = true := by
      rw [hbagenda, containsA_add_days, hcm2e, Bool.true_or]
    rw [lookupA_refresh, if_pos hcbe, hbagenda, lookupA_add_days, if_pos hcm2e, hm2_ne e hene]

/-- C2 witness: the spec's example with days numbered from 2025-01-11 as
day 0 — an agenda holding only ("finish agenda application", DONE) on day
0 extended by add_task at day 3 ("2025-01-14"). -/
theorem C2_add_task_forward_extension_witness :
    ∃ a', add_task 0 ⟨[(0, [("finish agenda application", TaskStatus.DONE)])], 0, 0⟩ 3
        "new task" TaskStatus.NOT_STARTED = .ok a' ∧
      a'.farthest_date = 3 ∧
      get_tasks a' 3 =
        get_tasks ⟨[(0, [("finish agenda application", TaskStatus.DONE)])], 0, 0⟩ 3 ++
          [("new task", TaskStatus.NOT_STARTED)] ∧
      (∀ e, (0:Int) < e → e < 3 →
        containsA [(0, [("finish agenda application", TaskStatus.DONE)])] e = false →
        lookupA a'.agenda e = some []) ∧
      (∀ e, e ≠ 3 →
        containsA [(0, [("finish agenda application", TaskStatus.DONE)])] e = true →
        lookupA a'.agenda e =
          lookupA [(0, [("finish agenda application", TaskStatus.DONE)])] e) :=
  C2_add_task_forward_extension 0
    ⟨[(0, [("finish agenda application", TaskStatus.DONE)])], 0, 0⟩ 3
    "new task" TaskStatus.NOT_STARTED (by decide) (by decide) (by decide)

/-! ## Settings loading -/

theorem loadCore_all (lines : List (List Char)) :
    ∀ (k : Nat) (vs : List SettingValue) (hlen : vs.length = lines.length),
      (∀ i (hi : i < lines.length),
        parseSettingLine (k + i) (lines.get ⟨i, hi⟩) =
          some (vs.get ⟨i, by omega⟩)) →
      loadSettingsCore k lines = some vs := by
  induction lines with
  | nil =>
    intro k vs hlen hp
    have hv : vs = [] := List.eq_nil_of_length_eq_zero (by simpa using hlen)
    subst hv
    rfl
  | cons l rest ih =>
    intro k vs hlen hp
    cases vs with
    | nil => simp at hlen
    | cons v vs' =>
      have h0 : parseSettingLine k l = some v := hp 0 (by simp)
      have hrest : loadSettingsCore (k + 1) rest = some vs' := by
        apply ih (k + 1) vs' (by simpa using hlen)
        intro i hi
        have hstep := hp (i + 1) (by simpa using Nat.succ_lt_succ hi)
        rw [show k + 1 + i = k + (i + 1) from by omega]
        exact hstep
      unfold loadSettingsCore
      rw [h0]
      dsimp only
      rw [hrest]

theorem parseSettingLine_none_of_mismatch (i : Nat) (l n : List Char)
    (hname : (pySplitTwo ':' ' ' (pyStrip l)).head? = some n)
    (hdiff : settings_names.get? i ≠ some n) :
    parseSettingLine i l = none := by
  unfold parseSettingLine
  cases hs : pySplitTwo ':' ' ' (pyStrip l) with
  | nil => rfl
  | cons d rest =>
    rw [hs] at hname
    have hd : d = n := by simpa using hname
    subst hd
    cases rest with
    | nil => rfl
    | cons setting rest2 =>
      cases rest2 with
      | nil =>
        dsimp only
        rw [if_neg hdiff]
      | cons x r3 => rfl

theorem loadCore_none (lines : List (List Char)) :
    ∀ (k i : Nat) (l : List Char),
      lines.get? i = some l → parseSettingLine (k + i) l = none →
      loadSettingsCore k lines = none := by
  induction lines with
  | nil =>
    intro k i l hget hp
    simp at hget
  | cons l0 rest ih =>
    intro k i l hget hp
    cases i with
    | zero =>
      have hl : l0 = l := by simpa using hget
      subst hl
      unfold loadSettingsCore
      rw [Nat.add_zero] at hp
      rw [hp]
    | succ j =>
      unfold loadSettingsCore
      cases hps : parseSettingLine k l0 with
      | none => rfl
      | some v =>
        dsimp only
        have hr : loadSettingsCore (k + 1) rest = none := by
          apply ih (k + 1) j l (by simpa using hget)
          rw [show k + 1 + j = k + (j + 1) from by omega]
          exact hp
        rw [hr]

/-- C6: a settings file whose lines are well-formed positional entries
(each line parses, its name matching the schema name at its position)
but with fewer lines than the schema loads as the parsed values followed
by the schema defaults for the missing trailing entries; a file with a
positional name mismatch makes `_load_saved_settings` raise, and startup
then falls back to the full default settings. -/
theorem C6_settings_load_resilience :
    (∀ (lines : List (List Char)) (vs : List SettingValue)
      (hlen : vs.length = lines.length),
      (∀ i (hi : i < lines.length),
        parseSettingLine i (lines.get ⟨i, hi⟩) = some (vs.get ⟨i, by omega⟩)) →
      _load_saved_settings lines = some (vs ++ settings_defaults.drop lines.length)) ∧
    (∀ (lines : List (List Char)) (i : Nat) (l n : List Char),
      lines.get? i = some l →
      (pySplitTwo ':' ' ' (pyStrip l)).head? = some n →
      settings_names.get? i ≠ some n →
      _load_saved_settings lines = none ∧
        startupSettings true lines = settings_defaults) := by
  constructor
  · intro lines vs hlen hp
    unfold _load_saved_settings
    rw [loadCore_all lines 0 vs hlen
      (fun i hi => by rw [Nat.zero_add]; exact hp i hi)]
    dsimp only
    rw [hlen]
  · intro lines i l n hget hname hdiff
    have hnone : _load_saved_settings lines = none := by
      unfold _load_saved_settings
      rw [loadCore_none lines 0 i l hget
        (by rw [Nat.zero_add]; exact parseSettingLine_none_of_mismatch i l n hname hdiff)]
    refine ⟨hnone, ?_⟩
    unfold startupSettings
    rw [if_pos rfl, hnone]

/-- C6 witness: a two-line well-formed file (the schema has seven
settings) loads as the two parsed values plus five defaults, and a
first-line name mismatch sends startup back to the defaults. -/
theorem C6_settings_load_resilience_witness :
    _load_saved_settings ["random setting: True".data, "show weekday names: False".data] =
      some ([SettingValue.boolVal true, SettingValue.boolVal false] ++
        settings_defaults.drop 2) ∧
    (_load_saved_settings ["wrong name: True".data] = none ∧
      startupSettings true ["wrong name: True".data] = settings_defaults) :=
  ⟨C6_settings_load_resilience.1
      ["random setting: True".data, "show weekday names: False".data]
      [SettingValue.boolVal true, SettingValue.boolVal false] (by decide) (by decide),
   C6_settings_load_resilience.2 ["wrong name: True".data] 0 "wrong name: True".data
      "wrong name".data (by decide) (by decide) (by decide)⟩

/-! ## Decimal digit lemmas -/

theorem natDigitsF_congr : ∀ (f1 f2 n : Nat), n < f1 → n < f2 →
    natDigitsF f1 n = natDigitsF f2 n := by
  intro f1
  induction f1 with
  | zero => intro f2 n h1; omega
  | succ f ih =>
    intro f2 n h1 h2
    cases f2 with
    | zero => omega
    | succ f2' =>
      unfold natDigitsF
      by_cases hn : n < 10
      · rw [if_pos hn, if_pos hn]
      · rw [if_neg hn, if_neg hn, ih f2' (n / 10) (by omega) (by omega)]

theorem natDigits_eq (n : Nat) :
    natDigits n = if n < 10 then [Char.ofNat (48 + n)]
      else natDigits (n / 10) ++ [Char.ofNat (48 + n % 10)] := by
  have hstep : natDigitsF (n + 1) n =
      if n < 10 then [Char.ofNat (48 + n)]
      else natDigitsF n (n / 10) ++ [Char.ofNat (48 + n % 10)] := rfl
  by_cases hn : n < 10
  · show natDigitsF (n + 1) n = _
    rw [hstep, if_pos hn, if_pos hn]
  · show natDigitsF (n + 1) n = _
    rw [hstep, if_neg hn, if_neg hn,
      natDigitsF_congr n (n / 10 + 1) (n / 10) (by omega) (by omega)]
    rfl

theorem digit_char_spec (m : Nat) (h : m < 10) :
    (Char.ofNat (48 + m)).toNat = 48 + m ∧ (Char.ofNat (48 + m)).isDigit = true := by
  interval_cases m <;> exact ⟨by decide, by decide⟩

theorem natDigits_all_digit (n : Nat) : (natDigits n).all Char.isDigit = true := by
  induction n using Nat.strong_induction_on with
  | _ n ih =>
    rw [natDigits_eq]
    by_cases hn : n < 10
    · rw [if_pos hn]
      simp [(digit_char_spec n hn).2]
    · rw [if_neg hn]
      rw [List.all_append]
      have h1 := ih (n / 10) (by omega)
      have h2 := (digit_char_spec (n % 10) (by omega)).2
      simp [h1, h2]

theorem digitsToNat_append_one (a : List Char) (c : Char) :
    digitsToNat (a ++ [c]) = digitsToNat a * 10 + (c.toNat - 48) := by
  unfold digitsToNat
  rw [List.foldl_append]
  rfl

theorem digitsToNat_natDigits (n : Nat) : digitsToNat (natDigits n) = n := by
  induction n using Nat.strong_induction_on with
  | _ n ih =>
    rw [natDigits_eq]
    by_cases hn : n < 10
    · rw [if_pos hn]
      unfold digitsToNat
      simp [(digit_char_spec n hn).1]
    · rw [if_neg hn, digitsToNat_append_one, ih (n / 10) (by omega),
        (digit_char_spec (n % 10) (by omega)).1]
      omega

theorem natDigits_length_small (n : Nat) (h : n < 10) :
    (natDigits n).length = 1 := by
  rw [natDigits_eq, if_pos h]
  rfl

theorem natDigits_length_step (n : Nat) (h : ¬ n < 10) :
    (natDigits n).length = (natDigits (n / 10)).length + 1 := by
  rw [natDigits_eq, if_neg h, List.length_append]
  rfl

theorem natDigits_length_four (y : Nat) (h1 : 1000 ≤ y) (h2 : y ≤ 9999) :
    (natDigits y).length = 4 := by
  rw [natDigits_length_step y (by omega),
    natDigits_length_step (y / 10) (by omega),
    natDigits_length_step (y / 10 / 10) (by omega),
    natDigits_length_small (y / 10 / 10 / 10) (by omega)]

theorem digit_char_excludes (c : Char) (h : c.isDigit = true) :
    c ≠ '-' ∧ c ≠ '/' ∧ c ≠ '.' ∧ c ≠ '+' ∧ c ≠ '\n' ∧ c ≠ 't' ∧ c ≠ 'n' := by
  refine ⟨?_, ?_, ?_, ?_, ?_, ?_, ?_⟩ <;> intro hc <;> subst hc <;> exact absurd h (by decide)

theorem all_digit_not_mem (l : List Char) (h : l.all Char.isDigit = true) (c : Char)
    (hc : c.isDigit = false) : c ∉ l := by
  intro hm
  have := List.all_eq_true.mp h c hm
  rw [hc] at this
  exact Bool.noConfusion this

theorem digitsToNat_cons_zero (l : List Char) :
    digitsToNat ('0' :: l) = digitsToNat l := rfl

/-! ## Single-character split lemmas -/

theorem pySplitOne_nil (sep : Char) : pySplitOne sep [] = [[]] := rfl

theorem pySplitOne_cons (sep c : Char) (r : List Char) :
    pySplitOne sep (c :: r) =
      if c = sep then [] :: pySplitOne sep r
      else match pySplitOne sep r with
        | [] => [[c]]
        | g :: gs => (c :: g) :: gs := rfl

theorem pySplitOne_ne_nil (sep : Char) (l : List Char) : pySplitOne sep l ≠ [] := by
  cases l with
  | nil => simp [pySplitOne_nil]
  | cons c r =>
    rw [pySplitOne_cons]
    split_ifs
    · simp
    · cases pySplitOne sep r <;> simp

theorem pySplitOne_no_sep (sep : Char) (l : List Char) (h : sep ∉ l) :
    pySplitOne sep l = [l] := by
  induction l with
  | nil => rfl
  | cons c r ih =>
    have hc : ¬ c = sep := fun hceq => h (by rw [← hceq]; exact List.mem_cons_self c r)
    have hr : sep ∉ r := fun hm => h (List.mem_cons_of_mem c hm)
    rw [pySplitOne_cons, if_neg hc, ih hr]

theorem pySplitOne_append (sep : Char) (a b : List Char) (h : sep ∉ a) :
    pySplitOne sep (a ++ sep :: b) = a :: pySplitOne sep b := by
  induction a with
  | nil =>
    rw [List.nil_append, pySplitOne_cons, if_pos rfl]
  | cons c a' ih =>
    have hc : ¬ c = sep := fun hceq => h (by rw [← hceq]; exact List.mem_cons_self c a')
    have ha' : sep ∉ a' := fun hm => h (List.mem_cons_of_mem c hm)
    rw [List.cons_append, pySplitOne_cons, if_neg hc, ih ha']

theorem pyJoin_pySplitOne (sep : Char) (l : List Char) :
    pyJoin [sep] (pySplitOne sep l) = l := by
  induction l with
  | nil => rfl
  | cons c r ih =>
    rw [pySplitOne_cons]
    by_cases hc : c = sep
    · rw [if_pos hc]
      subst hc
      cases hs : pySplitOne c r with
      | nil => exact absurd hs (pySplitOne_ne_nil c r)
      | cons g gs =>
        rw [hs] at ih
        show [] ++ [c] ++ pyJoin [c] (g :: gs) = c :: r
        rw [ih]
        rfl
    · rw [if_neg hc]
      cases hs : pySplitOne sep r with
      | nil => exact absurd hs (pySplitOne_ne_nil sep r)
      | cons g gs =>
        rw [hs] at ih
        cases gs with
        | nil =>
          show c :: g = c :: r
          rw [show g = r from ih]
        | cons g2 gs2 =>
          show (c :: g) ++ [sep] ++ pyJoin [sep] (g2 :: gs2) = c :: r
          rw [← ih]
          show (c :: g) ++ [sep] ++ pyJoin [sep] (g2 :: gs2) =
            c :: (g ++ [sep] ++ pyJoin [sep] (g2 :: gs2))
          simp only [List.cons_append, List.append_assoc]

theorem pyInStr_iff_infix (sub l : List Char) :
    pyInStr sub l = true ↔ sub <:+: l := by
  induction l with
  | nil =>
    show sub.isEmpty = true ↔ _
    rw [List.isEmpty_iff]
    constructor
    · intro h; subst h; exact List.infix_refl []
    · intro h; exact List.eq_nil_of_infix_nil h
  | cons c r ih =>
    show (sub.isPrefixOf (c :: r) || pyInStr sub r) = true ↔ _
    rw [Bool.or_eq_true, ih, List.infix_cons_iff]
    constructor
    · rintro (h | h)
      · exact Or.inl ( List.isPrefixOf_iff_prefix.mp h)
      · exact Or.inr h
    · rintro (h | h)
      · exact Or.inl ( List.isPrefixOf_iff_prefix.mpr h)
      · exact Or.inr h

theorem digit_not_mem_tomorrow (c : Char) (h : c.isDigit = true) :
    c ∉ "tomorrow".data := by
  intro hm
  have htom : "tomorrow".data = ['t', 'o', 'm', 'o', 'r', 'r', 'o', 'w'] := rfl
  rw [htom] at hm
  simp only [List.mem_cons, List.not_mem_nil, or_false] at hm
  rcases hm with rfl | rfl | rfl | rfl | rfl | rfl | rfl | rfl <;> exact absurd h (by decide)

/-! ## Calendar validity lemmas -/

theorem daysInMonth_pos (y m : Nat) (h1 : 1 ≤ m) (h2 : m ≤ 12) :
    1 ≤ daysInMonth y m := by
  interval_cases m <;> simp only [daysInMonth] <;> first | omega | (split_ifs <;> omega)

theorem dateValid_iff (t : YMD) :
    dateValid t = true ↔
      1 ≤ t.year ∧ t.year ≤ 9999 ∧ 1 ≤ t.month ∧ t.month ≤ 12 ∧
        1 ≤ t.day ∧ t.day ≤ daysInMonth t.year t.month := by
  unfold dateValid
  simp only [Bool.and_eq_true, decide_eq_true_eq]
  tauto

theorem dateValid_mk (y m d : Nat) :
    dateValid ⟨y, m, d⟩ = true ↔
      1 ≤ y ∧ y ≤ 9999 ∧ 1 ≤ m ∧ m ≤ 12 ∧ 1 ≤ d ∧ d ≤ daysInMonth y m := by
  simpa using dateValid_iff ⟨y, m, d⟩

theorem nextDateRaw_valid (t : YMD) (hv : dateValid t = true)
    (hne : t ≠ ⟨9999, 12, 31⟩) : dateValid (nextDateRaw t) = true := by
  obtain ⟨y, m, d⟩ := t
  obtain ⟨h1, h2, h3, h4, h5, h6⟩ := (dateValid_mk y m d).mp hv
  unfold nextDateRaw
  dsimp only
  split_ifs with hd hm
  · exact (dateValid_mk y m (d + 1)).mpr ⟨h1, h2, h3, h4, by omega, by omega⟩
  · exact (dateValid_mk y (m + 1) 1).mpr
      ⟨h1, h2, by omega, by omega, le_rfl, daysInMonth_pos y (m + 1) (by omega) (by omega)⟩
  · have hm12 : m = 12 := by omega
    have hd31 : d = 31 := by
      subst hm12
      have hdim : daysInMonth y 12 = 31 := rfl
      omega
    have hy : y ≠ 9999 := by
      intro hy
      exact hne (by rw [hy, hm12, hd31])
    refine (dateValid_mk (y + 1) 1 1).mpr ⟨by omega, by omega, by omega, by omega, le_rfl, ?_⟩
    have hdim : daysInMonth (y + 1) 1 = 31 := rfl
    omega

/-- C10: the parser's test against the word tomorrow is Python string
containment, not equality — every non-empty contiguous substring of
"tomorrow" that is not exactly "today" or "now" parses as today plus one
day (for a valid current date that is not the maximal representable
date, where the day arithmetic itself would overflow). -/
theorem C10_tomorrow_substring (today : YMD) (s : List Char)
    (hne : s ≠ []) (hinf : s <:+: "tomorrow".data)
    (ht : s ≠ "today".data) (hn : s ≠ "now".data)
    (hvalid : dateValid today = true) (hmax : today ≠ ⟨9999, 12, 31⟩) :
    _parse_date today s = some (nextDateRaw today) := by
  unfold _parse_date
  rw [if_neg (by
    rintro (h | h)
    · exact ht h
    · exact hn h)]
  rw [if_pos (( pyInStr_iff_infix s "tomorrow".data).mpr hinf)]
  show pyAddDays today 1 = _
  unfold pyAddDays
  rw [if_pos (nextDateRaw_valid today hvalid hmax)]
  rfl

/-- C10 witness: the token "morrow" on 2025-06-01 parses as 2025-06-02. -/
theorem C10_tomorrow_substring_witness :
    _parse_date ⟨2025, 6, 1⟩ "morrow".data = some ⟨2025, 6, 2⟩ := by
  have h := C10_tomorrow_substring ⟨2025, 6, 1⟩ "morrow".data (by decide)
    (by decide) (by decide) (by decide) (by decide) (by decide)
  rw [h]
  rfl

/-! ## The two-part date form -/

theorem pyJoin_pair (x y : List Char) : pyJoin ['-'] [x, y] = x ++ '-' :: y := by
  show x ++ ['-'] ++ y = x ++ '-' :: y
  simp

theorem fromisoformat_compose (y : Nat) (mm dd : List Char)
    (hy1 : 1000 ≤ y) (hy2 : y ≤ 9999)
    (hmm : mm.length = 2) (hdd : dd.length = 2)
    (hmd : mm.all Char.isDigit = true) (hddd : dd.all Char.isDigit = true) :
    fromisoformat (natDigits y ++ '-' :: (mm ++ '-' :: dd)) =
      if dateValid ⟨y, digitsToNat mm, digitsToNat dd⟩
      then some ⟨y, digitsToNat mm, digitsToNat dd⟩ else none := by
  have hynd : '-' ∉ natDigits y :=
    all_digit_not_mem _ (natDigits_all_digit y) '-' (by decide)
  have hmmnd : '-' ∉ mm := all_digit_not_mem _ hmd '-' (by decide)
  have hddnd : '-' ∉ dd := all_digit_not_mem _ hddd '-' (by decide)
  unfold fromisoformat
  rw [pySplitOne_append '-' _ _ hynd, pySplitOne_append '-' _ _ hmmnd,
    pySplitOne_no_sep '-' _ hddnd]
  dsimp only
  rw [if_pos ⟨natDigits_length_four y hy1 hy2, hmm, hdd, natDigits_all_digit y, hmd, hddd⟩]
  rw [digitsToNat_natDigits y]

/-- C7: a two-part date token `MM-DD` (with dash, slash or dot
separator, one- or two-digit numeric parts) parses to the calendar date
with that month and day in the current year when that composed date is
on or after today, and in the next year when it is strictly before
today.  The hypotheses state the presuppositions of the claim: today is
a valid date with a four-digit year, the composed month/day is a valid
date in the current year, and — in the before-today case — also in the
next year (otherwise `fromisoformat` raises). -/
theorem C7_two_part_year_inference (today : YMD) (p1 p2 : List Char) (sep : Char)
    (hval : dateValid today = true)
    (hy4 : 1000 ≤ today.year)
    (hsep : sep = '-' ∨ sep = '/' ∨ sep = '.')
    (hp1ne : p1 ≠ []) (hp1len : p1.length ≤ 2) (hp1d : p1.all Char.isDigit = true)
    (hp2ne : p2 ≠ []) (hp2len : p2.length ≤ 2) (hp2d : p2.all Char.isDigit = true)
    (hcur : dateValid ⟨today.year, digitsToNat p1, digitsToNat p2⟩ = true)
    (hnext : ltYMD ⟨today.year, digitsToNat p1, digitsToNat p2⟩ today = true →
      dateValid ⟨today.year + 1, digitsToNat p1, digitsToNat p2⟩ = true) :
    _parse_date today (p1 ++ sep :: p2) =
      some (if ltYMD ⟨today.year, digitsToNat p1, digitsToNat p2⟩ today
        then ⟨today.year + 1, digitsToNat p1, digitsToNat p2⟩
        else ⟨today.year, digitsToNat p1, digitsToNat p2⟩) := by
  have hsepd : sep.isDigit = false := by
    rcases hsep with rfl | rfl | rfl <;> decide
  obtain ⟨c1, p1', rfl⟩ : ∃ c1 p1', p1 = c1 :: p1' := by
    cases p1 with
    | nil => exact absurd rfl hp1ne
    | cons a b => exact ⟨a, b, rfl⟩
  have hc1d : c1.isDigit = true :=
    List.all_eq_true.mp hp1d c1 (List.mem_cons_self _ _)
  have hmem_tok : ∀ c, c ∈ (c1 :: p1') ++ sep :: p2 → c.isDigit = true ∨ c = sep := by
    intro c hc
    rcases List.mem_append.mp hc with hc | hc
    · exact Or.inl (List.all_eq_true.mp hp1d c hc)
    · rcases List.mem_cons.mp hc with rfl | hc
      · exact Or.inr rfl
      · exact Or.inl (List.all_eq_true.mp hp2d c hc)
  unfold _parse_date
  rw [if_neg (by
    rintro (h | h)
    · have hT : "today".data = 't' :: "oday".data := rfl
      rw [List.cons_append, hT] at h
      injection h with h1 _
      exact (digit_char_excludes c1 hc1d).2.2.2.2.2.1 h1
    · have hN : "now".data = 'n' :: "ow".data := rfl
      rw [List.cons_append, hN] at h
      injection h with h1 _
      exact (digit_char_excludes c1 hc1d).2.2.2.2.2.2 h1)]
  rw [if_neg (by
    intro h
    have hinf := ( pyInStr_iff_infix _ _).mp h
    have hmem : c1 ∈ "tomorrow".data :=
      hinf.subset (List.mem_append_left _ (List.mem_cons_self _ _))
    exact digit_not_mem_tomorrow c1 hc1d hmem)]
  have hplus : ((c1 :: p1') ++ sep :: p2).contains '+' = false := by
    have hnm : '+' ∉ (c1 :: p1') ++ sep :: p2 := by
      intro hm
      rcases hmem_tok '+' hm with hd | hd
      · exact absurd hd (by decide)
      · rcases hsep with rfl | rfl | rfl <;> exact absurd hd (by decide)
    simpa using hnm
  rw [hplus, if_neg Bool.false_ne_true]
  dsimp only
  have hp1dash : '-' ∉ c1 :: p1' := all_digit_not_mem _ hp1d '-' (by decide)
  have hp2dash : '-' ∉ p2 := all_digit_not_mem _ hp2d '-' (by decide)
  have hds2 : pyJoin ['-'] (pySplitOne '.'
      (pyJoin ['-'] (pySplitOne '/' ((c1 :: p1') ++ sep :: p2)))) =
      (c1 :: p1') ++ '-' :: p2 := by
    have hnodotp : ∀ x, x ∈ (c1 :: p1') ++ '-' :: p2 → x ≠ '.' := by
      intro x hx hx2
      subst hx2
      rcases List.mem_append.mp hx with hx | hx
      · exact absurd (List.all_eq_true.mp hp1d _ hx) (by decide)
      · rcases List.mem_cons.mp hx with heq | hx
        · exact absurd heq (by decide)
        · exact absurd (List.all_eq_true.mp hp2d _ hx) (by decide)
    rcases hsep with rfl | rfl | rfl
    · have hnosl : '/' ∉ (c1 :: p1') ++ '-' :: p2 := by
        intro hm
        rcases hmem_tok '/' hm with hd | hd
        · exact absurd hd (by decide)
        · exact absurd hd (by decide)
      rw [pySplitOne_no_sep '/' _ hnosl]
      show pyJoin ['-'] (pySplitOne '.' ((c1 :: p1') ++ '-' :: p2)) = _
      rw [pySplitOne_no_sep '.' _ (fun hm => hnodotp '.' hm rfl)]
      rfl
    · have hp1sl : '/' ∉ c1 :: p1' := all_digit_not_mem _ hp1d '/' (by decide)
      have hp2sl : '/' ∉ p2 := all_digit_not_mem _ hp2d '/' (by decide)
      rw [pySplitOne_append '/' _ _ hp1sl, pySplitOne_no_sep '/' _ hp2sl, pyJoin_pair]
      rw [pySplitOne_no_sep '.' _ (fun hm => hnodotp '.' hm rfl)]
      rfl
    · have hnosl : '/' ∉ (c1 :: p1') ++ '.' :: p2 := by
        intro hm
        rcases hmem_tok '/' hm with hd | hd
        · exact absurd hd (by decide)
        · exact absurd hd (by decide)
      rw [pySplitOne_no_sep '/' _ hnosl]
      show pyJoin ['-'] (pySplitOne '.' ((c1 :: p1') ++ '.' :: p2)) = _
      have hp1dot : '.' ∉ c1 :: p1' := all_digit_not_mem _ hp1d '.' (by decide)
      have hp2dot : '.' ∉ p2 := all_digit_not_mem _ hp2d '.' (by decide)
      rw [pySplitOne_append '.' _ _ hp1dot, pySplitOne_no_sep '.' _ hp2dot, pyJoin_pair]
  rw [hds2, pySplitOne_append '-' _ _ hp1dash, pySplitOne_no_sep '-' _ hp2dash]
  rw [if_neg (by simp), if_pos (by simp : ([c1 :: p1', p2] : List (List Char)).length = 2)]
  rw [show ([c1 :: p1', p2] : List (List Char)).getD 0 [] = c1 :: p1' from rfl]
  rw [show ([c1 :: p1', p2] : List (List Char)).getD 1 [] = p2 from rfl]
  rw [show (if (c1 :: p1').length = 1 ∨ p2.length = 1 then
        (if (c1 :: p1').length = 1 then '0' :: (c1 :: p1') else c1 :: p1') ++ '-' ::
          (if p2.length = 1 then '0' :: p2 else p2)
      else (c1 :: p1') ++ '-' :: p2) =
      (if (c1 :: p1').length = 1 then '0' :: (c1 :: p1') else c1 :: p1') ++ '-' ::
        (if p2.length = 1 then '0' :: p2 else p2) from by
    by_cases h : (c1 :: p1').length = 1 ∨ p2.length = 1
    · rw [if_pos h]
    · rw [if_neg h]
      push_neg at h
      rw [if_neg h.1, if_neg h.2]]
  have hv1 : digitsToNat (if (c1 :: p1').length = 1 then '0' :: (c1 :: p1') else c1 :: p1') =
      digitsToNat (c1 :: p1') := by
    split_ifs
    · exact digitsToNat_cons_zero _
    · rfl
  have hv2 : digitsToNat (if p2.length = 1 then '0' :: p2 else p2) = digitsToNat p2 := by
    split_ifs
    · exact digitsToNat_cons_zero _
    · rfl
  have hl1 : (if (c1 :: p1').length = 1 then '0' :: (c1 :: p1') else c1 :: p1').length = 2 := by
    split_ifs with h
    · simp [h]
    · simp only [List.length_cons] at hp1len h ⊢
      omega
  have hl2 : (if p2.length = 1 then '0' :: p2 else p2).length = 2 := by
    split_ifs with h
    · simp [h]
    · have hpos := List.length_pos.mpr hp2ne
      omega
  have hd1 : (if (c1 :: p1').length = 1 then '0' :: (c1 :: p1') else c1 :: p1').all
      Char.isDigit = true := by
    split_ifs
    · simp only [List.all_cons, Bool.and_eq_true]
      exact ⟨by decide, List.all_eq_true.mp hp1d c1 (List.mem_cons_self _ _),
        by simpa using fun c hc => List.all_eq_true.mp hp1d c (List.mem_cons_of_mem c1 hc)⟩
    · exact hp1d
  have hd2 : (if p2.length = 1 then '0' :: p2 else p2).all Char.isDigit = true := by
    split_ifs
    · simp only [List.all_cons, Bool.and_eq_true]
      exact ⟨by decide, by simpa using fun c hc => List.all_eq_true.mp hp2d c hc⟩
    · exact hp2d
  obtain ⟨-, hy9999, -⟩ := (dateValid_iff today).mp hval
  rw [fromisoformat_compose today.year _ _ hy4 hy9999 hl1 hl2 hd1 hd2, hv1, hv2, if_pos hcur]
  dsimp only
  by_cases hlt : ltYMD ⟨today.year, digitsToNat (c1 :: p1'), digitsToNat p2⟩ today = true
  · rw [if_pos hlt]
    have hnv := hnext hlt
    obtain ⟨-, h9999n, -⟩ := (dateValid_mk _ _ _).mp hnv
    rw [fromisoformat_compose (today.year + 1) _ _ (by omega) h9999n hl1 hl2 hd1 hd2,
      hv1, hv2, if_pos hnv, if_pos hlt]
  · rw [if_neg hlt, if_neg hlt]

/-- C7 witness: the spec's example — token "01-05" when today is
2025-06-01 parses to 2026-01-05. -/
theorem C7_two_part_year_inference_witness :
    _parse_date ⟨2025, 6, 1⟩ "01-05".data = some ⟨2026, 1, 5⟩ := by
  have h := C7_two_part_year_inference ⟨2025, 6, 1⟩ ['0', '1'] ['0', '5'] '-'
    (by decide) (by decide) (Or.inl rfl) (by decide) (by decide) (by decide)
    (by decide) (by decide) (by decide) (by decide) (fun _ => by decide)
  rw [show ("01-05".data : List Char) = ['0', '1'] ++ '-' :: ['0', '5'] from rfl, h]
  rfl

/-! ## Save/load round trip (C3) -/

theorem statusValue_ne_nil (st : TaskStatus) : statusValue st ≠ [] := by
  cases st <;> decide

theorem statusValue_no_ws (st : TaskStatus) : ∀ c ∈ statusValue st, isSpacePy c = false := by
  cases st <;> decide

theorem statusOf_statusValue (st : TaskStatus) : statusOf (statusValue st) = some st := by
  cases st <;> decide

theorem natDigits_mem_digit (n : Nat) (c : Char) (h : c ∈ natDigits n) : c.isDigit = true := by
  have := natDigits_all_digit n
  rw [List.all_eq_true] at this
  exact this c h

theorem digit_not_space (c : Char) (h : c.isDigit = true) : isSpacePy c = false := by
  cases h2 : isSpacePy c
  · rfl
  · exfalso
    unfold isSpacePy at h2
    simp only [Bool.or_eq_true, decide_eq_true_eq, or_assoc] at h2
    rcases h2 with rfl | rfl | rfl | rfl | rfl | rfl <;> exact absurd h (by decide)

theorem natDigits_ne_nil (n : Nat) : natDigits n ≠ [] := by
  rw [natDigits_eq]
  split_ifs <;> simp

theorem pyIntStr_ne_nil (d : Int) : pyIntStr d ≠ [] := by
  unfold pyIntStr
  split_ifs
  · simp
  · exact natDigits_ne_nil _

theorem pyIntStr_mem (d : Int) (c : Char) (h : c ∈ pyIntStr d) :
    isSpacePy c = false ∧ c ≠ '\n' := by
  have hd : c.isDigit = true ∨ c = '-' := by
    unfold pyIntStr at h
    split_ifs at h
    · rcases List.mem_cons.mp h with rfl | h2
      · exact Or.inr rfl
      · exact Or.inl (natDigits_mem_digit _ _ h2)
    · exact Or.inl (natDigits_mem_digit _ _ h)
  rcases hd with hd | rfl
  · refine ⟨digit_not_space c hd, fun hc => ?_⟩
    rw [hc] at hd
    exact absurd hd (by decide)
  · exact ⟨by decide, by decide⟩

theorem head_prop_of_mem {p : Char → Prop} (l : List Char) (hl : ∀ c ∈ l, p c) :
    ∀ c, l.head? = some c → p c := by
  intro c hc
  cases l with
  | nil => exact absurd hc (by simp)
  | cons a r => exact (Option.some.inj hc) ▸ hl a (List.mem_cons_self a r)

theorem getLast_prop_of_mem {p : Char → Prop} (l : List Char) (hl : ∀ c ∈ l, p c) :
    ∀ c, l.getLast? = some c → p c := by
  intro c hc
  refine hl c ?_
  rw [← List.head?_reverse] at hc
  have := head_prop_of_mem l.reverse (p := fun x => x ∈ l.reverse) (fun x hx => hx) c hc
  exact List.mem_reverse.mp this

theorem dropWhile_no_head (p : Char → Bool) (l : List Char)
    (h : ∀ c, l.head? = some c → p c = false) : l.dropWhile p = l := by
  cases l with
  | nil => rfl
  | cons a r => simp [List.dropWhile_cons, h a rfl]

theorem pyStrip_id (l : List Char)
    (h1 : ∀ c, l.head? = some c → isSpacePy c = false)
    (h2 : ∀ c, l.getLast? = some c → isSpacePy c = false) :
    pyStrip l = l := by
  unfold pyStrip
  rw [dropWhile_no_head _ _ h1]
  rw [dropWhile_no_head _ _ (fun c hc => h2 c (by rw [List.head?_reverse] at hc; exact hc))]
  exact List.reverse_reverse l

theorem pyStrip_wrap (x : List Char) (hne : x ≠ [])
    (h1 : ∀ c, x.head? = some c → isSpacePy c = false)
    (h2 : ∀ c, x.getLast? = some c → isSpacePy c = false) :
    pyStrip (x ++ ['\n', '\n']) = x := by
  obtain ⟨a, r, rfl⟩ : ∃ a r, x = a :: r := by
    cases x with
    | nil => exact absurd rfl hne
    | cons a r => exact ⟨a, r, rfl⟩
  unfold pyStrip
  rw [List.cons_append, List.dropWhile_cons]
  rw [h1 a rfl, if_neg Bool.false_ne_true]
  rw [show (a :: (r ++ ['\n', '\n'])) = ((a :: r) ++ ['\n', '\n']) from rfl]
  rw [List.reverse_append]
  show (List.dropWhile isSpacePy ('\n' :: '\n' :: (a :: r).reverse)).reverse = a :: r
  rw [List.dropWhile_cons, if_pos (show isSpacePy '\n' = true from rfl)]
  rw [List.dropWhile_cons, if_pos (show isSpacePy '\n' = true from rfl)]
  rw [dropWhile_no_head _ _ (fun c hc => h2 c (by rw [List.head?_reverse] at hc; exact hc))]
  exact List.reverse_reverse _

theorem pyJoin_cons_cons (sep : List Char) (x y : List Char) (r : List (List Char)) :
    pyJoin sep (x :: y :: r) = x ++ sep ++ pyJoin sep (y :: r) := rfl

theorem pyJoin_head (sep : List Char) (x : List Char) (ls : List (List Char)) :
    ∃ t, pyJoin sep (x :: ls) = x ++ t := by
  cases ls with
  | nil => exact ⟨[], (List.append_nil x).symm⟩
  | cons y r => exact ⟨sep ++ pyJoin sep (y :: r), by rw [pyJoin_cons_cons, List.append_assoc]⟩

theorem pyJoin_ne_nil (sep : List Char) (x : List Char) (ls : List (List Char)) (hx : x ≠ []) :
    pyJoin sep (x :: ls) ≠ [] := by
  obtain ⟨t, ht⟩ := pyJoin_head sep x ls
  rw [ht]
  intro h
  rw [List.append_eq_nil] at h
  exact hx h.1

theorem pyJoin_getLast (sep : List Char) :
    ∀ (ls : List (List Char)) (x : List Char), x ≠ [] → (∀ l ∈ ls, l ≠ []) →
    (pyJoin sep (x :: ls)).getLast? = ((x :: ls).getLast?.getD []).getLast? := by
  intro ls
  induction ls with
  | nil => intro x _ _; rfl
  | cons y r ih =>
    intro x _ hls
    have hy : y ≠ [] := hls y (List.mem_cons_self y r)
    have hr : ∀ l ∈ r, l ≠ [] := fun l hl => hls l (List.mem_cons_of_mem y hl)
    have hJ : pyJoin sep (y :: r) ≠ [] := pyJoin_ne_nil sep y r hy
    obtain ⟨c, hc⟩ : ∃ c, (pyJoin sep (y :: r)).getLast? = some c := by
      cases h : (pyJoin sep (y :: r)).getLast? with
      | none => exact absurd (List.getLast?_eq_none_iff.mp h) hJ
      | some c => exact ⟨c, rfl⟩
    rw [pyJoin_cons_cons, List.getLast?_append, hc]
    show some c = ((y :: r).getLast?.getD []).getLast?
    rw [← ih y hy hr, hc]

theorem mem_pyJoin (sep : List Char) (c : Char) :
    ∀ ls : List (List Char), c ∈ pyJoin sep ls → (∃ l ∈ ls, c ∈ l) ∨ c ∈ sep
  | [], h => absurd h (by simp [pyJoin])
  | [x], h => Or.inl ⟨x, by simp, h⟩
  | x :: y :: r, h => by
    rw [pyJoin_cons_cons] at h
    rcases List.mem_append.mp h with h1 | h2
    · rcases List.mem_append.mp h1 with h3 | h4
      · exact Or.inl ⟨x, by simp, h3⟩
      · exact Or.inr h4
    · rcases mem_pyJoin sep c (y :: r) h2 with ⟨l, hl, hcl⟩ | hs
      · exact Or.inl ⟨l, List.mem_cons_of_mem x hl, hcl⟩
      · exact Or.inr hs

theorem pySplitWsAux_tokens :
    ∀ (l acc : List Char), (∀ c ∈ acc, isSpacePy c = false) →
    ∀ t ∈ pySplitWsAux l acc, t ≠ [] ∧ ∀ c ∈ t, isSpacePy c = false := by
  intro l
  induction l with
  | nil =>
    intro acc hacc t ht
    unfold pySplitWsAux at ht
    split_ifs at ht with h
    · exact absurd ht (by simp)
    · have hne : acc ≠ [] := by
        intro h2
        rw [h2] at h
        exact h rfl
      rw [List.mem_singleton] at ht
      subst ht
      refine ⟨by simp [hne], fun c hc => hacc c (List.mem_reverse.mp hc)⟩
  | cons a r ih =>
    intro acc hacc t ht
    unfold pySplitWsAux at ht
    split_ifs at ht with h1 h2
    · exact ih [] (by simp) t ht
    · have hne : acc ≠ [] := by
        intro h3
        rw [h3] at h2
        exact h2 rfl
      rcases List.mem_cons.mp ht with rfl | ht2
      · refine ⟨by simp [hne], fun c hc => hacc c (List.mem_reverse.mp hc)⟩
      · exact ih [] (by simp) t ht2
    · refine ih (a :: acc) ?_ t ht
      intro c hc
      rcases List.mem_cons.mp hc with rfl | hc2
      · cases hsa : isSpacePy c
        · rfl
        · exact absurd hsa h1
      · exact hacc c hc2

theorem pySplitWs_tokens (l : List Char) :
    ∀ t ∈ pySplitWs l, t ≠ [] ∧ ∀ c ∈ t, isSpacePy c = false :=
  pySplitWsAux_tokens l [] (by simp)

theorem pySplitWsAux_cons (c : Char) (r acc : List Char) :
    pySplitWsAux (c :: r) acc =
      if isSpacePy c then
        (if acc.isEmpty then pySplitWsAux r [] else acc.reverse :: pySplitWsAux r [])
      else pySplitWsAux r (c :: acc) := rfl

theorem pySplitWsAux_token_start (tok : List Char) (htok : ∀ c ∈ tok, isSpacePy c = false) :
    ∀ (r acc : List Char), pySplitWsAux (tok ++ r) acc = pySplitWsAux r (tok.reverse ++ acc) := by
  induction tok with
  | nil => intro r acc; simp
  | cons c tok2 ih =>
    intro r acc
    rw [List.cons_append, pySplitWsAux_cons]
    rw [htok c (List.mem_cons_self c tok2), if_neg Bool.false_ne_true]
    rw [ih (fun x hx => htok x (List.mem_cons_of_mem c hx)) r (c :: acc)]
    rw [List.reverse_cons, List.append_assoc, List.singleton_append]

theorem pySplitWs_token_space (tok r : List Char) (hne : tok ≠ [])
    (htok : ∀ c ∈ tok, isSpacePy c = false) :
    pySplitWs (tok ++ ' ' :: r) = tok :: pySplitWs r := by
  unfold pySplitWs
  rw [pySplitWsAux_token_start tok htok (' ' :: r) []]
  rw [pySplitWsAux_cons]
  rw [if_pos (show isSpacePy ' ' = true from rfl)]
  rw [List.append_nil]
  rw [if_neg (by simp [hne] : ¬ tok.reverse.isEmpty = true)]
  rw [List.reverse_reverse]

theorem parseTaskLine_taskLine (t : Task) (h : canonicalDesc t.1) :
    parseTaskLine (taskLine t) = some t := by
  obtain ⟨desc, st⟩ := t
  obtain ⟨hne, hjoin⟩ := h
  have hsplit_ne : pySplitWs desc.data ≠ [] := by
    intro h0
    rw [h0] at hjoin
    exact hne (hjoin.symm.trans rfl)
  unfold parseTaskLine taskLine
  dsimp only
  rw [pySplitWs_token_space (statusValue st) desc.data (statusValue_ne_nil st)
    (statusValue_no_ws st)]
  dsimp only
  rw [statusOf_statusValue st]
  dsimp only
  rw [hjoin]

theorem parseTasks_map_taskLine :
    ∀ ts : List Task, (∀ t ∈ ts, canonicalDesc t.1) →
    parseTasks (ts.map taskLine) = some ts
  | [], _ => rfl
  | t :: r, h => by
    rw [List.map_cons]
    unfold parseTasks
    rw [parseTaskLine_taskLine t (h t (List.mem_cons_self t r))]
    rw [parseTasks_map_taskLine r (fun x hx => h x (List.mem_cons_of_mem t hx))]

theorem noNlNl_cons_cons (a b : Char) (r : List Char) :
    noNlNl (a :: b :: r) = if a = '\n' ∧ b = '\n' then false else noNlNl (b :: r) := rfl

theorem pySplitTwo_cons_cons (c1 c2 a b : Char) (r : List Char) :
    pySplitTwo c1 c2 (a :: b :: r) =
      if a = c1 ∧ b = c2 then [] :: pySplitTwo c1 c2 r
      else match pySplitTwo c1 c2 (b :: r) with
        | [] => [[a]]
        | g :: gs => (a :: g) :: gs := rfl

theorem noNlNl_append_left (l s : List Char) (h : '\n' ∉ l) :
    noNlNl (l ++ s) = noNlNl s := by
  induction l with
  | nil => rfl
  | cons x l2 ih =>
    have hx : ¬ x = '\n' := fun hc => h (List.mem_cons.mpr (Or.inl hc.symm))
    have htl : '\n' ∉ l2 := fun hc => h (List.mem_cons_of_mem x hc)
    cases l2 with
    | nil =>
      cases s with
      | nil => rfl
      | cons y s2 =>
        rw [show (([x] : List Char) ++ y :: s2) = x :: y :: s2 from rfl]
        rw [noNlNl_cons_cons, if_neg (fun hcon => hx hcon.1)]
    | cons z l3 =>
      rw [show ((x :: z :: l3) ++ s) = x :: z :: (l3 ++ s) from rfl]
      rw [noNlNl_cons_cons, if_neg (fun hcon => hx hcon.1)]
      rw [show (z :: (l3 ++ s)) = ((z :: l3) ++ s) from rfl]
      exact ih htl

theorem noNlNl_singleton_split (l : List Char) (h : noNlNl l = true) :
    pySplitTwo '\n' '\n' l = [l] := by
  induction l with
  | nil => rfl
  | cons x l2 ih =>
    cases l2 with
    | nil => rfl
    | cons y l3 =>
      rw [noNlNl_cons_cons] at h
      by_cases hc : x = '\n' ∧ y = '\n'
      · rw [if_pos hc] at h
        exact absurd h (by decide)
      · rw [if_neg hc] at h
        rw [pySplitTwo_cons_cons, if_neg hc, ih h]

theorem pySplitTwo_nlnl_append (s : List Char) :
    ∀ l : List Char, noNlNl l = true → l.getLast? ≠ some '\n' →
    pySplitTwo '\n' '\n' (l ++ '\n' :: '\n' :: s) = l :: pySplitTwo '\n' '\n' s := by
  intro l
  induction l with
  | nil =>
    intro _ _
    rw [List.nil_append, pySplitTwo_cons_cons, if_pos ⟨rfl, rfl⟩]
  | cons x l2 ih =>
    intro h hlast
    cases l2 with
    | nil =>
      have hx : ¬ (x = '\n') := fun hc => hlast (by rw [hc]; rfl)
      rw [show (([x] : List Char) ++ '\n' :: '\n' :: s) = x :: '\n' :: '\n' :: s from rfl]
      rw [pySplitTwo_cons_cons, if_neg (fun hcon => hx hcon.1)]
      rw [pySplitTwo_cons_cons, if_pos ⟨rfl, rfl⟩]
    | cons y l3 =>
      rw [noNlNl_cons_cons] at h
      by_cases hc : x = '\n' ∧ y = '\n'
      · rw [if_pos hc] at h
        exact absurd h (by decide)
      · rw [if_neg hc] at h
        have hlast2 : (y :: l3).getLast? ≠ some '\n' := by
          rw [← List.getLast?_cons_cons (a := x)]
          exact hlast
        rw [show ((x :: y :: l3) ++ '\n' :: '\n' :: s) =
              x :: ((y :: l3) ++ '\n' :: '\n' :: s) from rfl]
        rw [show ((y :: l3) ++ '\n' :: '\n' :: s) = y :: (l3 ++ '\n' :: '\n' :: s) from rfl]
        rw [pySplitTwo_cons_cons, if_neg hc]
        rw [show (y :: (l3 ++ '\n' :: '\n' :: s)) = ((y :: l3) ++ '\n' :: '\n' :: s) from rfl]
        rw [ih h hlast2]

theorem pySplitTwo_nlnl_join :
    ∀ cs : List (List Char), cs ≠ [] →
    (∀ c ∈ cs, noNlNl c = true ∧ c.getLast? ≠ some '\n') →
    pySplitTwo '\n' '\n' (pyJoin ['\n', '\n'] cs) = cs
  | [], h, _ => absurd rfl h
  | [c], _, hc => noNlNl_singleton_split c (hc c (by simp)).1
  | c :: c2 :: cr, _, hc => by
    rw [pyJoin_cons_cons, List.append_assoc]
    rw [show ((['\n', '\n'] : List Char) ++ pyJoin ['\n', '\n'] (c2 :: cr)) =
          '\n' :: '\n' :: pyJoin ['\n', '\n'] (c2 :: cr) from rfl]
    rw [pySplitTwo_nlnl_append _ c (hc c (by simp)).1 (hc c (by simp)).2]
    rw [pySplitTwo_nlnl_join (c2 :: cr) (by simp) (fun x hx => hc x (List.mem_cons_of_mem c hx))]

theorem pySplitOne_pyJoin (sep : Char) :
    ∀ ls : List (List Char), ls ≠ [] → (∀ l ∈ ls, sep ∉ l) →
    pySplitOne sep (pyJoin [sep] ls) = ls
  | [], h, _ => absurd rfl h
  | [l], _, hl => pySplitOne_no_sep sep l (hl l (by simp))
  | l :: l2 :: lr, _, hl => by
    rw [pyJoin_cons_cons, List.append_assoc]
    rw [show (([sep] : List Char) ++ pyJoin [sep] (l2 :: lr)) =
          sep :: pyJoin [sep] (l2 :: lr) from rfl]
    rw [pySplitOne_append sep l _ (hl l (by simp))]
    rw [pySplitOne_pyJoin sep (l2 :: lr) (by simp) (fun x hx => hl x (List.mem_cons_of_mem l hx))]

theorem dateFromIso_pyIntStr (d : Int) : dateFromIso (pyIntStr d) = some d := by
  unfold pyIntStr
  by_cases hd : d < 0
  · rw [if_pos hd]
    show (if natDigits (-d).toNat ≠ [] ∧ (natDigits (-d).toNat).all Char.isDigit then
        some (-(digitsToNat (natDigits (-d).toNat) : Int)) else none) = some d
    rw [if_pos ⟨natDigits_ne_nil _, natDigits_all_digit _⟩]
    rw [digitsToNat_natDigits]
    have h2 : (((-d).toNat : Int)) = -d := Int.toNat_of_nonneg (by omega)
    rw [h2, neg_neg]
  · rw [if_neg hd]
    obtain ⟨c, rest, hcr⟩ : ∃ c rest, natDigits d.toNat = c :: rest := by
      cases h : natDigits d.toNat with
      | nil => exact absurd h (natDigits_ne_nil _)
      | cons c rest => exact ⟨c, rest, rfl⟩
    have hcd : c.isDigit = true := natDigits_mem_digit _ c (by rw [hcr]; simp)
    have hcne : c ≠ '-' := fun hcon => by
      rw [hcon] at hcd
      exact absurd hcd (by decide)
    rw [hcr]
    unfold dateFromIso
    split
    · next r heq => exact absurd (List.cons.inj heq).1 hcne
    · next =>
        rw [← hcr]
        rw [if_pos ⟨natDigits_ne_nil _, natDigits_all_digit _⟩]
        rw [digitsToNat_natDigits]
        have h2 : ((d.toNat : Int)) = d := Int.toNat_of_nonneg (by omega)
        rw [h2]

theorem mem_of_getLast?_eq (l : List Char) (c : Char) (h : l.getLast? = some c) : c ∈ l := by
  rw [← List.head?_reverse] at h
  cases hr : l.reverse with
  | nil =>
    rw [hr] at h
    exact absurd h (by simp)
  | cons a r =>
    rw [hr] at h
    have hac : a = c := Option.some.inj h
    refine List.mem_reverse.mp ?_
    rw [hr, ← hac]
    exact List.mem_cons_self a r

theorem taskLine_ne_nil (t : Task) : taskLine t ≠ [] := by
  unfold taskLine
  cases hsv : statusValue t.2 with
  | nil => exact absurd hsv (statusValue_ne_nil t.2)
  | cons c r => simp

theorem taskLine_no_nl (t : Task) (h : canonicalDesc t.1) : '\n' ∉ taskLine t := by
  unfold taskLine
  intro hm
  rcases List.mem_append.mp hm with h1 | h2
  · exact absurd (statusValue_no_ws t.2 '\n' h1) (by decide)
  · rcases List.mem_cons.mp h2 with hc | h3
    · exact absurd hc (by decide)
    · obtain ⟨hne, hjoin⟩ := h
      rw [← hjoin] at h3
      rcases mem_pyJoin [' '] '\n' _ h3 with ⟨l, hl, hcl⟩ | hs
      · exact absurd ((pySplitWs_tokens t.1.data l hl).2 '\n' hcl) (by decide)
      · exact absurd (List.mem_singleton.mp hs) (by decide)

theorem desc_getLast_no_ws (s2 : String) (h : canonicalDesc s2) :
    ∀ c, s2.data.getLast? = some c → isSpacePy c = false := by
  obtain ⟨hne, hjoin⟩ := h
  intro c hc
  obtain ⟨tok0, toks, htoks⟩ : ∃ tok0 toks, pySplitWs s2.data = tok0 :: toks := by
    cases h0 : pySplitWs s2.data with
    | nil =>
      rw [h0] at hjoin
      exact absurd (hjoin.symm.trans rfl) hne
    | cons a b => exact ⟨a, b, rfl⟩
  have htoknn : ∀ l ∈ tok0 :: toks, l ≠ [] := by
    intro l hl
    exact (pySplitWs_tokens s2.data l (by rw [htoks]; exact hl)).1
  have hlast := pyJoin_getLast [' '] toks tok0 (htoknn tok0 (by simp))
    (fun l hl => htoknn l (List.mem_cons_of_mem tok0 hl))
  rw [← hjoin, htoks, hlast] at hc
  have hLmem : (tok0 :: toks).getLast?.getD [] ∈ tok0 :: toks := by
    rw [List.getLast?_eq_getLast _ (by simp)]
    simp only [Option.getD_some]
    exact List.getLast_mem _
  have hcmem : c ∈ (tok0 :: toks).getLast?.getD [] := mem_of_getLast?_eq _ c hc
  exact (pySplitWs_tokens s2.data _ (by rw [htoks]; exact hLmem)).2 c hcmem

theorem taskLine_getLast_no_ws (t : Task) (h : canonicalDesc t.1) :
    ∀ c, (taskLine t).getLast? = some c → isSpacePy c = false := by
  intro c hc
  obtain ⟨hne, hjoin⟩ := h
  obtain ⟨dch, drest, hdd⟩ : ∃ dch drest, t.1.data = dch :: drest := by
    cases h0 : t.1.data with
    | nil => exact absurd h0 hne
    | cons a b => exact ⟨a, b, rfl⟩
  unfold taskLine at hc
  rw [hdd, List.getLast?_append, List.getLast?_cons_cons] at hc
  obtain ⟨x, hx⟩ : ∃ x, (dch :: drest).getLast? = some x := by
    cases h0 : (dch :: drest).getLast? with
    | none => exact absurd (List.getLast?_eq_none_iff.mp h0) (by simp)
    | some x => exact ⟨x, rfl⟩
  rw [hx] at hc
  have hxc : x = c := Option.some.inj hc
  refine desc_getLast_no_ws t.1 ⟨hne, hjoin⟩ c ?_
  rw [hdd, hx, hxc]

theorem noNlNl_of_no_nl (l : List Char) (h : '\n' ∉ l) : noNlNl l = true := by
  have h2 := noNlNl_append_left l [] h
  rw [List.append_nil] at h2
  rw [h2]
  rfl

theorem pyJoin_nl_noNlNl :
    ∀ (ls : List (List Char)) (x : List Char), '\n' ∉ x →
    (∀ l ∈ ls, l ≠ [] ∧ '\n' ∉ l) → noNlNl (pyJoin ['\n'] (x :: ls)) = true := by
  intro ls
  induction ls with
  | nil =>
    intro x hnl _
    exact noNlNl_of_no_nl x hnl
  | cons y r ih =>
    intro x hnl hls
    have hy : y ≠ [] := (hls y (by simp)).1
    have hynl : '\n' ∉ y := (hls y (by simp)).2
    obtain ⟨c, y2, rfl⟩ : ∃ c y2, y = c :: y2 := by
      cases y with
      | nil => exact absurd rfl hy
      | cons c y2 => exact ⟨c, y2, rfl⟩
    have hcy : ¬ c = '\n' := fun hcon => hynl (List.mem_cons.mpr (Or.inl hcon.symm))
    obtain ⟨t, ht⟩ := pyJoin_head ['\n'] (c :: y2) r
    rw [pyJoin_cons_cons, List.append_assoc]
    rw [noNlNl_append_left x _ hnl]
    rw [ht]
    rw [show ((['\n'] : List Char) ++ ((c :: y2) ++ t)) = '\n' :: c :: (y2 ++ t) from rfl]
    rw [noNlNl_cons_cons, if_neg (fun hcon => hcy hcon.2)]
    rw [show (c :: (y2 ++ t)) = ((c :: y2) ++ t) from rfl]
    rw [← ht]
    exact ih (c :: y2) hynl (fun l hl => hls l (List.mem_cons_of_mem _ hl))

theorem dayContent_ne_nil (e : Int × List Task) : dayContent e ≠ [] :=
  pyJoin_ne_nil ['\n'] _ _ (pyIntStr_ne_nil e.1)

theorem dayContent_lines_ok (e : Int × List Task) (h : ∀ t ∈ e.2, canonicalDesc t.1) :
    ∀ l ∈ pyIntStr e.1 :: e.2.map taskLine, l ≠ [] ∧ '\n' ∉ l := by
  intro l hl
  rcases List.mem_cons.mp hl with rfl | hl2
  · exact ⟨pyIntStr_ne_nil e.1, fun hm => (pyIntStr_mem e.1 '\n' hm).2 rfl⟩
  · obtain ⟨t, ht, rfl⟩ := List.mem_map.mp hl2
    exact ⟨taskLine_ne_nil t, taskLine_no_nl t (h t ht)⟩

theorem dayContent_noNlNl (e : Int × List Task) (h : ∀ t ∈ e.2, canonicalDesc t.1) :
    noNlNl (dayContent e) = true := by
  unfold dayContent
  refine pyJoin_nl_noNlNl _ _ (fun hm => (pyIntStr_mem e.1 '\n' hm).2 rfl) ?_
  intro l hl
  exact dayContent_lines_ok e h l (List.mem_cons_of_mem _ hl)

theorem dayContent_head_no_ws (e : Int × List Task) :
    ∀ c, (dayContent e).head? = some c → isSpacePy c = false := by
  intro c hc
  unfold dayContent at hc
  obtain ⟨t, ht⟩ := pyJoin_head ['\n'] (pyIntStr e.1) (e.2.map taskLine)
  rw [ht] at hc
  obtain ⟨a, r, har⟩ : ∃ a r, pyIntStr e.1 = a :: r := by
    cases h0 : pyIntStr e.1 with
    | nil => exact absurd h0 (pyIntStr_ne_nil e.1)
    | cons a r => exact ⟨a, r, rfl⟩
  rw [har] at hc
  have hac : a = c := Option.some.inj hc
  refine (pyIntStr_mem e.1 c ?_).1
  rw [har, ← hac]
  exact List.mem_cons_self a r

theorem dayContent_getLast_no_ws (e : Int × List Task) (h : ∀ t ∈ e.2, canonicalDesc t.1) :
    ∀ c, (dayContent e).getLast? = some c → isSpacePy c = false := by
  intro c hc
  unfold dayContent at hc
  rw [pyJoin_getLast ['\n'] (e.2.map taskLine) (pyIntStr e.1) (pyIntStr_ne_nil e.1)
    (fun l hl => (dayContent_lines_ok e h l (List.mem_cons_of_mem _ hl)).1)] at hc
  have hLmem : (pyIntStr e.1 :: e.2.map taskLine).getLast?.getD [] ∈
      pyIntStr e.1 :: e.2.map taskLine := by
    rw [List.getLast?_eq_getLast _ (by simp)]
    simp only [Option.getD_some]
    exact List.getLast_mem _
  rcases List.mem_cons.mp hLmem with hL | hL2
  · rw [hL] at hc
    exact (pyIntStr_mem e.1 c (mem_of_getLast?_eq _ c hc)).1
  · obtain ⟨t, ht, hteq⟩ := List.mem_map.mp hL2
    rw [← hteq] at hc
    exact taskLine_getLast_no_ws t (h t ht) c hc

theorem flatten_lines (lines : List (List Char)) :
    ∀ x : List Char,
    x ++ '\n' :: ((lines.map (fun l => l ++ ['\n'])).flatten ++ ['\n']) =
      pyJoin ['\n'] (x :: lines) ++ ['\n', '\n'] := by
  induction lines with
  | nil => intro x; rfl
  | cons l ls ih =>
    intro x
    rw [List.map_cons, List.flatten_cons, pyJoin_cons_cons]
    calc x ++ '\n' :: (((l ++ ['\n']) ++ (ls.map (fun l2 => l2 ++ ['\n'])).flatten) ++ ['\n'])
        = x ++ '\n' :: (l ++ '\n' :: ((ls.map (fun l2 => l2 ++ ['\n'])).flatten ++ ['\n'])) := by
          simp [List.append_assoc]
      _ = x ++ '\n' :: (pyJoin ['\n'] (l :: ls) ++ ['\n', '\n']) := by rw [ih l]
      _ = (x ++ ['\n'] ++ pyJoin ['\n'] (l :: ls)) ++ ['\n', '\n'] := by
          simp [List.append_assoc]

theorem dayBlock_eq (e : Int × List Task) :
    dayBlock e = dayContent e ++ ['\n', '\n'] := by
  unfold dayBlock dayContent
  have hmaps : e.2.map (fun t => taskLine t ++ ['\n']) =
      (e.2.map taskLine).map (fun l => l ++ ['\n']) := by
    rw [List.map_map]
    rfl
  rw [hmaps]
  exact flatten_lines (e.2.map taskLine) (pyIntStr e.1)

theorem flatten_blocks :
    ∀ es : List (Int × List Task), es ≠ [] →
    (es.map dayBlock).flatten = pyJoin ['\n', '\n'] (es.map dayContent) ++ ['\n', '\n']
  | [], h => absurd rfl h
  | [e], _ => by
    rw [List.map_cons, List.map_nil, List.flatten_cons, List.flatten_nil, List.append_nil]
    rw [dayBlock_eq]
    rfl
  | e :: e2 :: er, _ => by
    rw [List.map_cons, List.flatten_cons, dayBlock_eq]
    rw [flatten_blocks (e2 :: er) (by simp)]
    rw [show List.map dayContent (e :: e2 :: er) =
          dayContent e :: dayContent e2 :: List.map dayContent er from rfl]
    rw [pyJoin_cons_cons]
    simp [List.append_assoc]

theorem loadBlock_dayContent (st : LoadState) (e : Int × List Task)
    (h : ∀ t ∈ e.2, canonicalDesc t.1) :
    loadBlock st (dayContent e) =
      some (if e.2.isEmpty then st
            else ⟨setA st.agenda e.1 e.2,
                  if e.1 > st.farthest_date then e.1 else st.farthest_date,
                  if e.1 < st.earliest_date then e.1 else st.earliest_date⟩) := by
  cases he : e.2 with
  | nil =>
    unfold loadBlock dayContent
    rw [he]
    rw [show (List.map taskLine []) = ([] : List (List Char)) from rfl]
    rw [show pyJoin ['\n'] [pyIntStr e.1] = pyIntStr e.1 from rfl]
    dsimp only
    rw [pySplitOne_no_sep '\n' _ (fun hm => (pyIntStr_mem e.1 '\n' hm).2 rfl)]
    rw [if_pos (show [pyIntStr e.1].length = 1 from rfl)]
    rfl
  | cons t ts2 =>
    rw [he] at h
    have hsplit : pySplitOne '\n' (dayContent e) =
        pyIntStr e.1 :: taskLine t :: List.map taskLine ts2 := by
      unfold dayContent
      rw [he, List.map_cons]
      refine pySplitOne_pyJoin '\n' _ (by simp) ?_
      intro l hl
      rcases List.mem_cons.mp hl with rfl | hl2
      · exact fun hm => (pyIntStr_mem e.1 '\n' hm).2 rfl
      · rcases List.mem_cons.mp hl2 with rfl | hl3
        · exact taskLine_no_nl t (h t (by simp))
        · obtain ⟨u, hu, rfl⟩ := List.mem_map.mp hl3
          exact taskLine_no_nl u (h u (List.mem_cons_of_mem t hu))
    unfold loadBlock
    dsimp only
    rw [hsplit]
    rw [if_neg (by simp)]
    dsimp only
    rw [dateFromIso_pyIntStr]
    dsimp only
    rw [show parseTasks (taskLine t :: List.map taskLine ts2) = some (t :: ts2) from by
      rw [← List.map_cons]
      exact parseTasks_map_taskLine (t :: ts2) h]
    rfl

theorem loadBlocks_contents :
    ∀ (es : List (Int × List Task)) (st : LoadState),
    (∀ e ∈ es, ∀ t ∈ e.2, canonicalDesc t.1) →
    loadBlocks st (es.map dayContent) =
      some ⟨es.foldl (fun m e => if e.2.isEmpty then m else setA m e.1 e.2) st.agenda,
            foldFar st.farthest_date ((es.filter (fun e => !e.2.isEmpty)).map Prod.fst),
            foldEarl st.earliest_date ((es.filter (fun e => !e.2.isEmpty)).map Prod.fst)⟩ := by
  intro es
  induction es with
  | nil =>
    intro st _
    rfl
  | cons e es2 ih =>
    intro st h
    rw [List.map_cons]
    show (match loadBlock st (dayContent e) with
          | none => none
          | some st2 => loadBlocks st2 (es2.map dayContent)) = _
    rw [loadBlock_dayContent st e (h e (by simp))]
    dsimp only
    by_cases hemp : e.2.isEmpty
    · rw [if_pos hemp]
      rw [ih st (fun x hx t ht => h x (List.mem_cons_of_mem e hx) t ht)]
      rw [List.foldl_cons, List.filter_cons]
      rw [if_pos hemp]
      rw [if_neg (show ¬ ((!e.2.isEmpty) = true) from by rw [hemp]; decide)]
    · have hemp2 : e.2.isEmpty = false := by
        cases h0 : e.2.isEmpty
        · rfl
        · exact absurd h0 hemp
      rw [if_neg hemp]
      rw [ih ⟨setA st.agenda e.1 e.2,
             if e.1 > st.farthest_date then e.1 else st.farthest_date,
             if e.1 < st.earliest_date then e.1 else st.earliest_date⟩
          (fun x hx t ht => h x (List.mem_cons_of_mem e hx) t ht)]
      rw [List.foldl_cons, List.filter_cons]
      rw [if_neg hemp]
      rw [if_pos (show (!e.2.isEmpty) = true from by rw [hemp2]; decide)]
      rfl

theorem lookupA_cons (e : Int × List Task) (r : List (Int × List Task)) (d : Int) :
    lookupA (e :: r) d = if e.1 = d then some e.2 else lookupA r d := rfl

theorem lookupA_none_of_not_key (m : List (Int × List Task)) (d : Int)
    (h : d ∉ m.map Prod.fst) : lookupA m d = none := by
  induction m with
  | nil => rfl
  | cons e r ih =>
    rw [lookupA_cons]
    rw [if_neg (fun hk => h (by rw [List.map_cons]; exact List.mem_cons.mpr (Or.inl hk.symm)))]
    exact ih (fun hm => h (by rw [List.map_cons]; exact List.mem_cons_of_mem _ hm))

theorem lookup_foldl_setA :
    ∀ (es m0 : List (Int × List Task)) (d : Int),
    (∀ e ∈ es, containsA m0 e.1 = false) → (es.map Prod.fst).Nodup →
    lookupA (es.foldl (fun m e => if e.2.isEmpty then m else setA m e.1 e.2) m0) d =
      (match lookupA m0 d with
       | some v => some v
       | none => lookupA (es.filter (fun e => !e.2.isEmpty)) d) := by
  intro es
  induction es with
  | nil =>
    intro m0 d _ _
    rw [List.foldl_nil]
    cases hl : lookupA m0 d with
    | none => rfl
    | some v => rfl
  | cons e es2 ih =>
    intro m0 d hdis hnodup
    rw [List.foldl_cons]
    have hdis2 : ∀ x ∈ es2, containsA m0 x.1 = false :=
      fun x hx => hdis x (List.mem_cons_of_mem e hx)
    have hnodup2 : (es2.map Prod.fst).Nodup := by
      rw [List.map_cons] at hnodup
      exact hnodup.of_cons
    have hkey : e.1 ∉ es2.map Prod.fst := by
      rw [List.map_cons] at hnodup
      exact (List.nodup_cons.mp hnodup).1
    have hm0e : lookupA m0 e.1 = none := by
      have := hdis e (List.mem_cons_self e es2)
      unfold containsA at this
      cases hl : lookupA m0 e.1 with
      | none => rfl
      | some v =>
        rw [hl] at this
        simp at this
    by_cases hemp : e.2.isEmpty
    · rw [if_pos hemp]
      rw [ih m0 d hdis2 hnodup2]
      rw [List.filter_cons]
      rw [if_neg (show ¬ ((!e.2.isEmpty) = true) from by rw [hemp]; decide)]
    · rw [if_neg hemp]
      have hdis3 : ∀ x ∈ es2, containsA (setA m0 e.1 e.2) x.1 = false := by
        intro x hx
        rw [containsA_setA]
        rw [if_neg (fun hk => hkey (by rw [← hk]; exact List.mem_map_of_mem Prod.fst hx))]
        exact hdis2 x hx
      rw [ih (setA m0 e.1 e.2) d hdis3 hnodup2]
      rw [List.filter_cons]
      rw [if_pos (show (!e.2.isEmpty) = true from by
        cases h0 : e.2.isEmpty
        · rfl
        · exact absurd h0 hemp)]
      rw [lookupA_setA]
      by_cases hde : d = e.1
      · rw [if_pos hde, hde, hm0e]
        rw [lookupA_cons, if_pos (show e.1 = e.1 from rfl)]
      · rw [if_neg hde]
        cases hl : lookupA m0 d with
        | some v => rfl
        | none =>
          rw [lookupA_cons, if_neg (fun hk => hde hk.symm)]

theorem lookup_filter_tasks :
    ∀ es : List (Int × List Task), (es.map Prod.fst).Nodup → ∀ d : Int,
    lookupA (es.filter (fun e => !e.2.isEmpty)) d =
      (match lookupA es d with
       | some ts => if ts.isEmpty then none else some ts
       | none => none) := by
  intro es
  induction es with
  | nil => intro _ d; rfl
  | cons e es2 ih =>
    intro hnodup d
    have hnodup2 : (es2.map Prod.fst).Nodup := by
      rw [List.map_cons] at hnodup
      exact hnodup.of_cons
    have hkey : e.1 ∉ es2.map Prod.fst := by
      rw [List.map_cons] at hnodup
      exact (List.nodup_cons.mp hnodup).1
    rw [List.filter_cons]
    by_cases hemp : e.2.isEmpty
    · rw [if_neg (show ¬ ((!e.2.isEmpty) = true) from by rw [hemp]; decide)]
      rw [ih hnodup2 d]
      by_cases hde : e.1 = d
      · have hlnone : lookupA es2 d = none :=
          lookupA_none_of_not_key es2 d (by rw [← hde]; exact hkey)
        rw [hlnone, lookupA_cons, if_pos hde]
        dsimp only
        rw [if_pos hemp]
      · rw [lookupA_cons, if_neg hde]
    · rw [if_pos (show (!e.2.isEmpty) = true from by
        cases h0 : e.2.isEmpty
        · rfl
        · exact absurd h0 hemp)]
      rw [lookupA_cons, lookupA_cons]
      by_cases hde : e.1 = d
      · rw [if_pos hde, if_pos hde]
        dsimp only
        rw [if_neg hemp]
      · rw [if_neg hde, if_neg hde]
        exact ih hnodup2 d

theorem join_contents_strip (es : List (Int × List Task)) (hne : es ≠ [])
    (hdesc : ∀ e ∈ es, ∀ t ∈ e.2, canonicalDesc t.1) :
    (∀ c, (pyJoin ['\n', '\n'] (es.map dayContent)).head? = some c → isSpacePy c = false) ∧
    (∀ c, (pyJoin ['\n', '\n'] (es.map dayContent)).getLast? = some c → isSpacePy c = false) ∧
    pyJoin ['\n', '\n'] (es.map dayContent) ≠ [] := by
  obtain ⟨e0, er, rfl⟩ : ∃ e0 er, es = e0 :: er := by
    cases es with
    | nil => exact absurd rfl hne
    | cons e0 er => exact ⟨e0, er, rfl⟩
  refine ⟨?_, ?_, ?_⟩
  · intro c hc
    rw [List.map_cons] at hc
    obtain ⟨t, ht⟩ := pyJoin_head ['\n', '\n'] (dayContent e0) (er.map dayContent)
    rw [ht] at hc
    obtain ⟨a, r, har⟩ : ∃ a r, dayContent e0 = a :: r := by
      cases h0 : dayContent e0 with
      | nil => exact absurd h0 (dayContent_ne_nil e0)
      | cons a r => exact ⟨a, r, rfl⟩
    rw [har] at hc
    refine dayContent_head_no_ws e0 c ?_
    rw [har]
    exact hc
  · intro c hc
    rw [List.map_cons] at hc
    rw [pyJoin_getLast ['\n', '\n'] (er.map dayContent) (dayContent e0) (dayContent_ne_nil e0)
      (fun l hl => by
        obtain ⟨e, he, rfl⟩ := List.mem_map.mp hl
        exact dayContent_ne_nil e)] at hc
    have hLmem : (dayContent e0 :: er.map dayContent).getLast?.getD [] ∈
        dayContent e0 :: er.map dayContent := by
      rw [List.getLast?_eq_getLast _ (by simp)]
      simp only [Option.getD_some]
      exact List.getLast_mem _
    rcases List.mem_cons.mp hLmem with hL | hL2
    · rw [hL] at hc
      exact dayContent_getLast_no_ws e0 (hdesc e0 (by simp)) c hc
    · obtain ⟨e, he, hLe⟩ := List.mem_map.mp hL2
      rw [← hLe] at hc
      exact dayContent_getLast_no_ws e (hdesc e (List.mem_cons_of_mem e0 he)) c hc
  · rw [List.map_cons]
    exact pyJoin_ne_nil _ _ _ (dayContent_ne_nil e0)

theorem save_eq (a : Agenda) (hne : a.agenda ≠ [])
    (hdesc : ∀ e ∈ a.agenda, ∀ t ∈ e.2, canonicalDesc t.1) :
    save a = pyJoin ['\n', '\n'] (a.agenda.map dayContent) := by
  unfold save
  rw [flatten_blocks a.agenda hne]
  obtain ⟨hh, hl, hnn⟩ := join_contents_strip a.agenda hne hdesc
  exact pyStrip_wrap _ hnn hh hl

theorem load_save (today : Int) (a : Agenda) (hne : a.agenda ≠ [])
    (hdesc : ∀ e ∈ a.agenda, ∀ t ∈ e.2, canonicalDesc t.1) :
    load today (save a) =
      some ⟨_add_days
              (a.agenda.foldl (fun m e => if e.2.isEmpty then m else setA m e.1 e.2) [])
              today (foldFar today (taskDays a)),
            foldFar today (taskDays a), foldEarl today (taskDays a)⟩ := by
  unfold load
  rw [save_eq a hne hdesc]
  obtain ⟨hh, hl, hnn⟩ := join_contents_strip a.agenda hne hdesc
  dsimp only
  rw [pyStrip_id _ hh hl]
  rw [pySplitTwo_nlnl_join (a.agenda.map dayContent)
      (fun h0 => hne (List.map_eq_nil_iff.mp h0))
      (fun x hx => by
        obtain ⟨e, he, rfl⟩ := List.mem_map.mp hx
        refine ⟨dayContent_noNlNl e (hdesc e he), fun hlast => ?_⟩
        exact absurd (dayContent_getLast_no_ws e (hdesc e he) '\n' hlast) (by decide))]
  rw [loadBlocks_contents a.agenda ⟨[], today, today⟩ hdesc]
  rfl

/-- C3 counterexample: the store `{2025-01-01: [], 2025-01-02: []}` (two
tracked, empty days, numbered 0 and 1, with latest_date 1) saves to
`"0\n\n1"`; reloading it with today = 0 keeps only day 0, so day 1 is
tracked before the round trip but untracked after it, and latest_date
drops to 0. -/
theorem C3_counterexample :
    containsA ([(0, []), (1, [])] : List (Int × List Task)) 1 = true ∧
    save ⟨[(0, []), (1, [])], 1, 0⟩ = "0\n\n1".data ∧
    load 0 (save ⟨[(0, []), (1, [])], 1, 0⟩) = some ⟨[(0, [])], 0, 0⟩ ∧
    containsA ([(0, [])] : List (Int × List Task)) 1 = false := by
  exact ⟨rfl, rfl, rfl, rfl⟩

/-- C3 (amended): for an agenda whose mapping has no duplicate dates and
whose task descriptions are in canonical whitespace form, reloading the
saved file with current date `today` succeeds and yields exactly: every
day with at least one task keeps its task list (descriptions and
statuses); latest_date and earliest_date are recomputed from `today` and
the task-bearing days only; and the tracked empty days are exactly the
contiguous range from `today` to the recomputed latest_date — any other
saved empty day is dropped. -/
theorem C3_save_load_round_trip (today : Int) (a : Agenda)
    (hkeys : (a.agenda.map Prod.fst).Nodup)
    (hdesc : ∀ e ∈ a.agenda, ∀ t ∈ e.2, canonicalDesc t.1) :
    ∃ a2 : Agenda, load today (save a) = some a2 ∧
      a2.farthest_date = foldFar today (taskDays a) ∧
      a2.earliest_date = foldEarl today (taskDays a) ∧
      ∀ d : Int, lookupA a2.agenda d =
        (match lookupA a.agenda d with
         | some ts =>
           if ts.isEmpty then
             (if today ≤ d ∧ d ≤ foldFar today (taskDays a) then some [] else none)
           else some ts
         | none =>
           if today ≤ d ∧ d ≤ foldFar today (taskDays a) then some [] else none) := by
  by_cases hag : a.agenda = []
  · refine ⟨⟨_add_days [] today today, today, today⟩, ?_, ?_, ?_, ?_⟩
    · unfold save
      rw [hag]
      unfold load
      dsimp only
      rw [show pySplitTwo '\n' '\n'
            (pyStrip (pyStrip (List.map dayBlock ([] : List (Int × List Task))).flatten)) =
            [[]] from rfl]
      rw [show loadBlocks ⟨[], today, today⟩ [[]] = some ⟨[], today, today⟩ from rfl]
    · unfold taskDays
      rw [hag]
      rfl
    · unfold taskDays
      rw [hag]
      rfl
    · intro d
      dsimp only
      rw [lookupA_add_days]
      rw [if_neg (show ¬ (containsA ([] : List (Int × List Task)) d = true) from
        fun h => Bool.false_ne_true h)]
      unfold taskDays
      rw [hag]
      rw [show lookupA ([] : List (Int × List Task)) d = none from rfl]
      rfl
  · have hne : a.agenda ≠ [] := hag
    refine ⟨⟨_add_days
              (a.agenda.foldl (fun m e => if e.2.isEmpty then m else setA m e.1 e.2) [])
              today (foldFar today (taskDays a)),
            foldFar today (taskDays a), foldEarl today (taskDays a)⟩,
           load_save today a hne hdesc, rfl, rfl, ?_⟩
    intro d
    dsimp only
    rw [lookupA_add_days]
    have hMd : lookupA (a.agenda.foldl
          (fun m e => if e.2.isEmpty then m else setA m e.1 e.2) []) d =
        (match lookupA a.agenda d with
         | some ts => if ts.isEmpty then none else some ts
         | none => none) := by
      rw [lookup_foldl_setA a.agenda [] d (fun e he => rfl) hkeys]
      show lookupA (a.agenda.filter (fun e => !e.2.isEmpty)) d = _
      exact lookup_filter_tasks a.agenda hkeys d
    cases hlk : lookupA a.agenda d with
    | none =>
      rw [hlk] at hMd
      have hM2 : containsA (a.agenda.foldl
          (fun m e => if e.2.isEmpty then m else setA m e.1 e.2) []) d = false := by
        unfold containsA
        rw [hMd.trans rfl]
        rfl
      rw [if_neg (by rw [hM2]; decide)]
    | some ts =>
      rw [hlk] at hMd
      by_cases hemp : ts.isEmpty
      · have hM : lookupA (a.agenda.foldl
            (fun m e => if e.2.isEmpty then m else setA m e.1 e.2) []) d = none := by
          rw [hMd]
          dsimp only
          rw [if_pos hemp]
        have hM2 : containsA (a.agenda.foldl
            (fun m e => if e.2.isEmpty then m else setA m e.1 e.2) []) d = false := by
          unfold containsA
          rw [hM]
          rfl
        rw [if_neg (by rw [hM2]; decide)]
        dsimp only
        rw [if_pos hemp]
      · have hM : lookupA (a.agenda.foldl
            (fun m e => if e.2.isEmpty then m else setA m e.1 e.2) []) d = some ts := by
          rw [hMd]
          dsimp only
          rw [if_neg hemp]
        have hM2 : containsA (a.agenda.foldl
            (fun m e => if e.2.isEmpty then m else setA m e.1 e.2) []) d = true := by
          unfold containsA
          rw [hM]
          rfl
        rw [if_pos hM2, hM]
        dsimp only
        rw [if_neg hemp]

/-- Witness for C3: the amended round-trip statement holds for today = 0
and the agenda `{0: [("a b", DONE)], 2: []}`. -/
theorem C3_save_load_round_trip_witness :
    ∃ a2 : Agenda,
      load 0 (save ⟨[(0, [("a b", TaskStatus.DONE)]), (2, [])], 2, 0⟩) = some a2 ∧
      a2.farthest_date =
        foldFar 0 (taskDays ⟨[(0, [("a b", TaskStatus.DONE)]), (2, [])], 2, 0⟩) ∧
      a2.earliest_date =
        foldEarl 0 (taskDays ⟨[(0, [("a b", TaskStatus.DONE)]), (2, [])], 2, 0⟩) ∧
      ∀ d : Int, lookupA a2.agenda d =
        (match lookupA ([(0, [("a b", TaskStatus.DONE)]), (2, [])] :
            List (Int × List Task)) d with
         | some ts =>
           if ts.isEmpty then
             (if 0 ≤ d ∧ d ≤ foldFar 0
                 (taskDays ⟨[(0, [("a b", TaskStatus.DONE)]), (2, [])], 2, 0⟩)
              then some [] else none)
           else some ts
         | none =>
           if 0 ≤ d ∧ d ≤ foldFar 0
               (taskDays ⟨[(0, [("a b", TaskStatus.DONE)]), (2, [])], 2, 0⟩)
           then some [] else none) :=
  C3_save_load_round_trip 0 ⟨[(0, [("a b", TaskStatus.DONE)]), (2, [])], 2, 0⟩
    (by decide)
    (by
      intro e he t ht
      rcases List.mem_cons.mp he with rfl | he2
      · rcases List.mem_singleton.mp ht with rfl
        exact ⟨by decide, by decide⟩
      · rcases List.mem_singleton.mp he2 with rfl
        exact absurd ht (by simp))

end CLA
